import Mathlib

/-!
SingleLinkedList (single-linked-list.h): a memory model and its verification.

The container is a chain of heap nodes hanging off a sentinel node `head_` that is a
member of the list object, plus a counter `size_`.  The embedding keeps that shape:

* a `NodePtr` is a `Node*`: null, the address of the `head_` member of a list object,
  or the address of a node obtained from `new`;
* `Mem` is the machine state: the list objects alive on the stack, the heap cells
  (a deleted cell stays in place, marked `none`, and its address is never reused),
  and the number of `new` calls that still succeed before the allocator throws;
* every member function is a function on `Mem` returning `Except Fault _`; a fault is
  `std::bad_alloc` (carrying the memory left behind after unwinding), a failed
  `assert`, or undefined behaviour (reading or writing through a null or dangling
  pointer, deleting something that is not a live heap node);
* the loops (`Clear`, the range-for of the copy constructor, a caller's walk from
  `begin()` to `end()`) recurse on a fuel argument; `Clear_fuel` and `CopyLoop_fuel`
  show that the fuel the member functions pass is never what ends a loop.

`size_t` is modelled by `Nat`: the counter moves by one per call, so it cannot wrap in
a run of feasible length.

The free comparison operators call `std::equal` and `std::lexicographical_compare`,
which are embedded as the loops the C++ standard describes.

Layout: the data model and the member functions; the free functions; the predicates
`Seg` and `IsList` that say what a well-formed list is, sequences of calls a caller
makes, the specification's lexicographic order, two element types with unusual
comparisons, and example memories; lemmas on chains,
on each member function, on copying, on comparison and on allocation failure; then the
claims of the specification.
-/

set_option autoImplicit false

/-- A `Node*`. -/
inductive NodePtr where
  | null : NodePtr
  | head (obj : Nat) : NodePtr
  | cell (addr : Nat) : NodePtr
deriving DecidableEq, Repr

/-- The struct `Node`: a value and the link to the next node. -/
structure Node (α : Type) where
  value : α
  next_node : NodePtr
deriving DecidableEq, Repr

/-- The data members of a `SingleLinkedList<Type>` object. -/
structure SingleLinkedList (α : Type) where
  head_ : Node α
  size_ : Nat
deriving DecidableEq, Repr

/-- Machine state: list objects by index, heap cells by address, allocations left. -/
structure Mem (α : Type) where
  objs : List (SingleLinkedList α)
  heap : List (Option (Node α))
  budget : Nat
deriving DecidableEq, Repr

/-- Ways a call can fail to return normally. -/
inductive Fault (α : Type) where
  | bad_alloc (m : Mem α) : Fault α
  | assertion : Fault α
  | undefined : Fault α
  | out_of_fuel : Fault α
deriving DecidableEq, Repr

/-- The class `BasicIterator`: a cursor holding a node pointer. -/
structure BasicIterator where
  node_ : NodePtr
deriving DecidableEq, Repr

namespace Mem

variable {α : Type}

/-- Read `*p` for a node pointer `p`. -/
def readNode (m : Mem α) : NodePtr → Except (Fault α) (Node α)
  | .null => .error .undefined
  | .head l =>
    match m.objs[l]? with
    | some L => .ok L.head_
    | none => .error .undefined
  | .cell a =>
    match m.heap[a]? with
    | some (some n) => .ok n
    | _ => .error .undefined

/-- The assignment `p->next_node = q`. -/
def setNext (m : Mem α) (p q : NodePtr) : Except (Fault α) (Mem α) :=
  match p with
  | .null => .error .undefined
  | .head l =>
    match m.objs[l]? with
    | some L => .ok { m with objs := m.objs.set l { L with head_ := { L.head_ with next_node := q } } }
    | none => .error .undefined
  | .cell a =>
    match m.heap[a]? with
    | some (some n) => .ok { m with heap := m.heap.set a (some { n with next_node := q }) }
    | _ => .error .undefined

/-- The expression `new Node(val, next)`: a fresh cell, or `std::bad_alloc`. -/
def newNode (m : Mem α) (val : α) (next : NodePtr) : Except (Fault α) (NodePtr × Mem α) :=
  if m.budget = 0 then .error (.bad_alloc m)
  else .ok (.cell m.heap.length,
            { m with heap := m.heap ++ [some ⟨val, next⟩], budget := m.budget - 1 })

/-- The statement `delete p`. -/
def deleteNode (m : Mem α) : NodePtr → Except (Fault α) (Mem α)
  | .null => .ok m
  | .head _ => .error .undefined
  | .cell a =>
    match m.heap[a]? with
    | some (some _) => .ok { m with heap := m.heap.set a none }
    | _ => .error .undefined

/-- The list object with index `l`. -/
def obj (m : Mem α) (l : Nat) : Except (Fault α) (SingleLinkedList α) :=
  match m.objs[l]? with
  | some L => .ok L
  | none => .error .undefined

/-- The assignment `l.size_ = n`. -/
def setSize (m : Mem α) (l n : Nat) : Except (Fault α) (Mem α) :=
  match m.objs[l]? with
  | some L => .ok { m with objs := m.objs.set l { L with size_ := n } }
  | none => .error .undefined

/-- Storage for a new list object with the default member initialisers
(`Node head_;` with `value {}` and `next_node = nullptr`, `size_ = 0`). -/
def newObj [Inhabited α] (m : Mem α) : Nat × Mem α :=
  (m.objs.length, { m with objs := m.objs ++ [⟨⟨default, .null⟩, 0⟩] })

/-- Release the storage of the most recently created list object. -/
def popObj (m : Mem α) : Mem α :=
  { m with objs := m.objs.dropLast }

end Mem

namespace BasicIterator

variable {α : Type}

/-- The pre-increment `operator++`. -/
def incr (it : BasicIterator) (m : Mem α) : Except (Fault α) BasicIterator :=
  if it.node_ ≠ .null then do
    let n ← m.readNode it.node_
    pure ⟨n.next_node⟩
  else pure it

/-- The dereference `operator*`. -/
def deref (it : BasicIterator) (m : Mem α) : Except (Fault α) α :=
  if it.node_ = .null then .error .assertion
  else do
    let n ← m.readNode it.node_
    pure n.value

end BasicIterator

namespace SingleLinkedList

variable {α : Type}

/-- The getter `GetSize()`. -/
def GetSize (this : Nat) (m : Mem α) : Except (Fault α) Nat := do
  let L ← m.obj this
  pure L.size_

/-- The predicate `IsEmpty()`. -/
def IsEmpty (this : Nat) (m : Mem α) : Except (Fault α) Bool := do
  let L ← m.obj this
  pure (if L.size_ = 0 then true else false)

/-- The iterator `begin()` (and `cbegin()`): `Iterator(head_.next_node)`. -/
def begin (this : Nat) (m : Mem α) : Except (Fault α) BasicIterator := do
  let L ← m.obj this
  pure ⟨L.head_.next_node⟩

/-- The iterator `end()` (and `cend()`): `Iterator()`. -/
def end_ : BasicIterator := ⟨.null⟩

/-- The iterator `before_begin()`: `Iterator(&head_)`. -/
def before_begin (this : Nat) : BasicIterator := ⟨.head this⟩

/-- The member `swap(other)`. -/
def swap (this other : Nat) (m : Mem α) : Except (Fault α) (Mem α) := do
  let a ← m.readNode (.head this)
  let b ← m.readNode (.head other)
  let m ← m.setNext (.head this) b.next_node
  let m ← m.setNext (.head other) a.next_node
  let A ← m.obj this
  let B ← m.obj other
  let m ← m.setSize this B.size_
  m.setSize other A.size_

/-- The private helper `PushValue(value)`. -/
def PushValue (this : Nat) (value : α) (m : Mem α) : Except (Fault α) (Mem α) := do
  let h ← m.readNode (.head this)
  let (p, m) ← m.newNode value h.next_node
  m.setNext (.head this) p

/-- The member `PushFront(value)`. -/
def PushFront (this : Nat) (value : α) (m : Mem α) : Except (Fault α) (Mem α) := do
  let m ← PushValue this value m
  let L ← m.obj this
  m.setSize this (L.size_ + 1)

/-- The member `PopFront()`. -/
def PopFront (this : Nat) (m : Mem α) : Except (Fault α) (Mem α) := do
  let L ← m.obj this
  if L.size_ > 0 then
    let removed := L.head_.next_node
    let r ← m.readNode removed
    let m ← m.setNext (.head this) r.next_node
    let m ← m.deleteNode removed
    let L ← m.obj this
    m.setSize this (L.size_ - 1)
  else pure m

/-- The member `InsertAfter(pos, value)`. -/
def InsertAfter (this : Nat) (pos : BasicIterator) (value : α) (m : Mem α) :
    Except (Fault α) (BasicIterator × Mem α) := do
  if pos.node_ = .null then throw .assertion
  let n ← m.readNode pos.node_
  let (p, m) ← m.newNode value n.next_node
  let m ← m.setNext pos.node_ p
  let L ← m.obj this
  let m ← m.setSize this (L.size_ + 1)
  let n ← m.readNode pos.node_
  pure (⟨n.next_node⟩, m)

/-- The member `EraseAfter(pos)`. -/
def EraseAfter (this : Nat) (pos : BasicIterator) (m : Mem α) :
    Except (Fault α) (BasicIterator × Mem α) := do
  if pos.node_ = .null then throw .assertion
  let L ← m.obj this
  let m ← if L.size_ > 0 then do
      let n ← m.readNode pos.node_
      let removed := n.next_node
      let r ← m.readNode removed
      let m ← m.setNext pos.node_ r.next_node
      let m ← m.deleteNode removed
      let L ← m.obj this
      m.setSize this (L.size_ - 1)
    else pure m
  let n ← m.readNode pos.node_
  pure (⟨n.next_node⟩, m)

/-- The loop of `Clear()`: `while (head_.next_node) { ... }`. -/
def ClearLoop (this : Nat) : Nat → Mem α → Except (Fault α) (Mem α)
  | 0, _ => .error .out_of_fuel
  | fuel + 1, m => do
    let h ← m.readNode (.head this)
    if h.next_node ≠ .null then
      let n ← m.readNode h.next_node
      let temp := n.next_node
      let m ← m.deleteNode h.next_node
      let m ← m.setNext (.head this) temp
      ClearLoop this fuel m
    else pure m

/-- The member `Clear()`.  Every iteration of the loop deletes a live heap cell, so
`heap.length + 1` iterations are never all used. -/
def Clear (this : Nat) (m : Mem α) : Except (Fault α) (Mem α) := do
  let m ← ClearLoop this (m.heap.length + 1) m
  m.setSize this 0

/-- The destructor of a local list object: `Clear()`, then its storage is released. -/
def destroy (this : Nat) (m : Mem α) : Except (Fault α) (Mem α) := do
  let m ← Clear this m
  pure m.popObj

/-- The default constructor. -/
def ctor_default [Inhabited α] (m : Mem α) : Nat × Mem α :=
  m.newObj

/-- The loop of the initializer-list constructor over the values it is handed
(already in the order `rbegin .. rend`). -/
def PushValues (this : Nat) : List α → Mem α → Except (Fault α) (Mem α)
  | [], m => pure m
  | v :: vs, m => do
    let m ← PushValue this v m
    PushValues this vs m

/-- The constructor from `std::initializer_list<Type>`.  When `new` throws, the
object under construction is not destroyed: its storage is released and the nodes
built so far stay on the heap. -/
def ctor_init_list [Inhabited α] (values : List α) (m : Mem α) :
    Except (Fault α) (Nat × Mem α) :=
  let (this, m) := m.newObj
  match (do
      let m ← m.setSize this values.length
      PushValues this values.reverse m) with
  | .ok m => .ok (this, m)
  | .error (.bad_alloc m) => .error (.bad_alloc m.popObj)
  | .error e => .error e

/-- The range-for loop of the copy constructor: `it` walks `other`, `prev_ptr` is the
node the next copy is linked behind. -/
def CopyLoop : Nat → BasicIterator → NodePtr → Mem α → Except (Fault α) (Mem α)
  | 0, _, _, _ => .error .out_of_fuel
  | fuel + 1, it, prev_ptr, m =>
    if it ≠ end_ then do
      let node ← it.deref m
      let (next_ptr, m) ← m.newNode node .null
      let m ← m.setNext prev_ptr next_ptr
      let it ← it.incr m
      CopyLoop fuel it next_ptr m
    else pure m

/-- The statements of the copy constructor that can throw (lines 94 to 103), run on
the object under construction `this` and its local `temp`.  Every iteration of the
loop allocates, so `budget + 1` iterations are never all used. -/
def ctor_copy_build (this temp other : Nat) (m : Mem α) : Except (Fault α) (Mem α) := do
  let O ← m.obj other
  let m ← m.setSize temp O.size_
  let b ← begin other m
  if b ≠ end_ then
    let prev_ptr := NodePtr.head this
    CopyLoop (m.budget + 1) b prev_ptr m
  else pure m

/-- The copy constructor.  When `new` throws, the local `temp` is destroyed and the
storage of the object under construction is released without running its destructor. -/
def ctor_copy [Inhabited α] (other : Nat) (m : Mem α) : Except (Fault α) (Nat × Mem α) :=
  let (this, m) := m.newObj
  let (temp, m) := m.newObj
  match ctor_copy_build this temp other m with
  | .ok m => do
    let m ← swap this temp m
    let m ← destroy temp m
    pure (this, m)
  | .error (.bad_alloc m) =>
    match destroy temp m with
    | .ok m => .error (.bad_alloc m.popObj)
    | .error e => .error e
  | .error e => .error e

/-- The copy assignment `operator=`. -/
def assign [Inhabited α] (this rhs : Nat) (m : Mem α) : Except (Fault α) (Mem α) :=
  if this ≠ rhs then do
    let (temp, m) ← ctor_copy rhs m
    let m ← swap this temp m
    destroy temp m
  else pure m

/-- What a caller sees walking `it` up to `end()` and collecting `*it`. -/
def iterate : Nat → BasicIterator → Mem α → Except (Fault α) (List α)
  | 0, _, _ => .error .out_of_fuel
  | fuel + 1, it, m =>
    if it ≠ end_ then do
      let v ← it.deref m
      let it ← it.incr m
      let vs ← iterate fuel it m
      pure (v :: vs)
    else pure []

/-- The element sequence of list `this`: the values met from `begin()` to `end()`.  A
walk that is longer than the number of nodes in memory has entered a cycle. -/
def elements (this : Nat) (m : Mem α) : Except (Fault α) (List α) := do
  let b ← begin this m
  iterate (m.heap.length + m.objs.length + 1) b m

end SingleLinkedList

section FreeFunctions

variable {α : Type}

open SingleLinkedList

/-- The free function `swap(lhs, rhs)`, named apart from the member it calls. -/
def free_swap (lhs rhs : Nat) (m : Mem α) : Except (Fault α) (Mem α) :=
  SingleLinkedList.swap lhs rhs m

/-- The algorithm `std::equal(first1, last1, first2)`: walk the first range, comparing
with what the second iterator refers to by the element type's own `operator==`. -/
def std_equal [BEq α] :
    Nat → BasicIterator → BasicIterator → BasicIterator → Mem α → Except (Fault α) Bool
  | 0, _, _, _, _ => .error .out_of_fuel
  | fuel + 1, first1, last1, first2, m =>
    if first1 ≠ last1 then do
      let a ← first1.deref m
      let b ← first2.deref m
      if a == b then
        let first1 ← first1.incr m
        let first2 ← first2.incr m
        std_equal fuel first1 last1 first2 m
      else pure false
    else pure true

/-- The algorithm `std::lexicographical_compare(first1, last1, first2, last2)`. -/
def std_lexicographical_compare [LT α] [DecidableRel (fun a b : α => a < b)] :
    Nat → BasicIterator → BasicIterator → BasicIterator → BasicIterator → Mem α →
      Except (Fault α) Bool
  | 0, _, _, _, _, _ => .error .out_of_fuel
  | fuel + 1, first1, last1, first2, last2, m =>
    if first1 ≠ last1 ∧ first2 ≠ last2 then do
      let a ← first1.deref m
      let b ← first2.deref m
      if a < b then pure true
      else if b < a then pure false
      else
        let first1 ← first1.incr m
        let first2 ← first2.incr m
        std_lexicographical_compare fuel first1 last1 first2 last2 m
    else pure (decide (first1 = last1 ∧ first2 ≠ last2))

/-- The free `operator==`.  The fuel covers any walk that does not run into a cycle. -/
def operator_eq [BEq α] (lhs rhs : Nat) (m : Mem α) : Except (Fault α) Bool := do
  let n1 ← GetSize lhs m
  let n2 ← GetSize rhs m
  if n1 ≠ n2 then pure false
  else
    let b1 ← begin lhs m
    let b2 ← begin rhs m
    std_equal (m.heap.length + m.objs.length + 1) b1 end_ b2 m

/-- The free `operator<`.  The fuel covers any walk that does not run into a cycle. -/
def operator_lt [LT α] [DecidableRel (fun a b : α => a < b)] (lhs rhs : Nat) (m : Mem α) :
    Except (Fault α) Bool := do
  let b1 ← begin lhs m
  let b2 ← begin rhs m
  std_lexicographical_compare (m.heap.length + m.objs.length + 1) b1 end_ b2 end_ m

/-- The free `operator<=`. -/
def operator_le [LT α] [DecidableRel (fun a b : α => a < b)] (lhs rhs : Nat) (m : Mem α) :
    Except (Fault α) Bool := do
  let r ← operator_lt rhs lhs m
  pure (!r)

/-- The free `operator>`. -/
def operator_gt [LT α] [DecidableRel (fun a b : α => a < b)] (lhs rhs : Nat) (m : Mem α) :
    Except (Fault α) Bool :=
  operator_lt rhs lhs m

/-- The free `operator>=`. -/
def operator_ge [LT α] [DecidableRel (fun a b : α => a < b)] (lhs rhs : Nat) (m : Mem α) :
    Except (Fault α) Bool := do
  let r ← operator_lt lhs rhs m
  pure (!r)

end FreeFunctions

/-- A run of nodes: starting at pointer `p`, following `next_node` through exactly the
heap cells `as` (in this order), which hold the values `xs`, and arriving at `q`. -/
def Seg {α : Type} (heap : List (Option (Node α))) :
    NodePtr → List Nat → List α → NodePtr → Prop
  | p, [], [], q => p = q
  | p, a :: as, x :: xs, q =>
    p = .cell a ∧ ∃ nx, heap[a]? = some (some ⟨x, nx⟩) ∧ Seg heap nx as xs q
  | _, _, _, _ => False

/-- List object `this` has its chain in the heap cells `as`, ending in a null link, with
element sequence `xs`, and its size counter is `n`. -/
def IsList {α : Type} (m : Mem α) (this : Nat) (as : List Nat) (xs : List α) (n : Nat) : Prop :=
  ∃ L, m.objs[this]? = some L ∧ L.size_ = n ∧ Seg m.heap L.head_.next_node as xs .null

/-- The positions of a list whose chain is `as`: the sentinel, then each node in order. -/
def positions (this : Nat) (as : List Nat) : List BasicIterator :=
  ⟨.head this⟩ :: as.map (fun a => ⟨.cell a⟩)

/-- Example memory: nothing constructed yet, eight allocations available. -/
def mEmpty : Mem Int := ⟨[], [], 8⟩

/-- Example memory: what `SingleLinkedList<int> l{1};` leaves behind in `mEmpty`. -/
def mOne : Mem Int :=
  ⟨[⟨⟨0, .cell 0⟩, 1⟩], [some ⟨1, .null⟩], 7⟩

/-- Example memory: what `SingleLinkedList<int> l{1, 2, 3};` leaves behind in `mEmpty`. -/
def m123 : Mem Int :=
  ⟨[⟨⟨0, .cell 2⟩, 3⟩], [some ⟨3, .null⟩, some ⟨2, .cell 0⟩, some ⟨1, .cell 1⟩], 5⟩

/-- Example memory: what `SingleLinkedList<int> a{7}; SingleLinkedList<int> b{1, 2};`
leave behind in `mEmpty`. -/
def mTwoLists : Mem Int :=
  ⟨[⟨⟨0, .cell 0⟩, 1⟩, ⟨⟨0, .cell 2⟩, 2⟩],
   [some ⟨7, .null⟩, some ⟨2, .null⟩, some ⟨1, .cell 1⟩], 5⟩

section CallerSequences

variable {α : Type}

open SingleLinkedList

/-- What a caller does calling `PushFront` once for each value of a sequence, in order. -/
def PushFronts (this : Nat) : List α → Mem α → Except (Fault α) (Mem α)
  | [], m => pure m
  | v :: vs, m => do
    let m ← PushFront this v m
    PushFronts this vs m

/-- What a caller does calling `PopFront()` `k` times in a row. -/
def PopFronts (this : Nat) : Nat → Mem α → Except (Fault α) (Mem α)
  | 0, m => pure m
  | k + 1, m => do
    let m ← PopFront this m
    PopFronts this k m

end CallerSequences


section Lexicographic

variable {α : Type}

/-- Lexicographic comparison of two value sequences as a function: the outcome of
comparing element by element from the front. -/
def lexLess [LT α] [DecidableRel (fun a b : α => a < b)] : List α → List α → Bool
  | [], [] => false
  | [], _ :: _ => true
  | _ :: _, [] => false
  | x :: xs, y :: ys => if x < y then true else if y < x then false else lexLess xs ys

/-- The specification's words for "lexicographically smaller": the sequences agree
before some index `i`, and there either the left one has ended while the right one goes
on (a proper prefix), or both have an element and the left element is the smaller. -/
def LexSmaller [LT α] (xs ys : List α) : Prop :=
  ∃ i : Nat, xs.take i = ys.take i ∧
    ((xs.length = i ∧ i < ys.length) ∨ ∃ a b, xs[i]? = some a ∧ ys[i]? = some b ∧ a < b)

end Lexicographic


/-- Example memory: what `a{1, 2}; b{1, 2, 3}; c{1, 3}; d{};` (four lists of `int` built in
this order by the initializer-list constructor) leave behind in `mEmpty`. -/
def mFour : Mem Int :=
  ⟨[⟨⟨0, .cell 1⟩, 2⟩, ⟨⟨0, .cell 4⟩, 3⟩, ⟨⟨0, .cell 6⟩, 2⟩, ⟨⟨0, .null⟩, 0⟩],
   [some ⟨2, .null⟩, some ⟨1, .cell 0⟩, some ⟨3, .null⟩, some ⟨2, .cell 2⟩,
    some ⟨1, .cell 3⟩, some ⟨3, .null⟩, some ⟨1, .cell 5⟩], 1⟩


/-- Example memory: `mTwoLists` when the allocator will grant one more node only. -/
def mTwoListsTight : Mem Int :=
  { mTwoLists with budget := 1 }

/-- Example memory: a default-constructed `SingleLinkedList<int>` and nothing else. -/
def mDefault : Mem Int := ⟨[⟨⟨0, .null⟩, 0⟩], [], 8⟩


section ElementTypes

variable {α : Type}

/-- The conjunction of the element type's `==` over two value sequences, index by
index; false when the lengths differ. -/
def pairwiseEq [BEq α] : List α → List α → Bool
  | [], [] => true
  | x :: xs, y :: ys => (x == y) && pairwiseEq xs ys
  | _, _ => false

/-- An element type whose `==` behaves as that of `double`: finite values are compared
by their number, and `nan` is `==` to nothing, itself included. -/
inductive Dbl where
  | num (v : Int) : Dbl
  | nan : Dbl
deriving Repr

/-- The `operator==` of `Dbl`. -/
def Dbl.eq : Dbl → Dbl → Bool
  | .num a, .num b => a == b
  | _, _ => false

instance : BEq Dbl := ⟨Dbl.eq⟩

instance : Inhabited Dbl := ⟨.num 0⟩

/-- An element type whose `operator<` was written with `<=` on the wrapped number, so
that every value is `<` itself. -/
structure Loose where
  v : Int
deriving Repr

instance : LT Loose := ⟨fun a b => a.v ≤ b.v⟩

instance : DecidableRel (fun a b : Loose => a < b) :=
  fun a b => inferInstanceAs (Decidable (a.v ≤ b.v))

instance : BEq Loose := ⟨fun a b => a.v == b.v⟩

instance : Inhabited Loose := ⟨⟨0⟩⟩

/-- Example memory for `Dbl`: nothing constructed yet, eight allocations available. -/
def mEmptyDbl : Mem Dbl := ⟨[], [], 8⟩

/-- Example memory: what `SingleLinkedList<double> a{NaN}; SingleLinkedList<double> b{NaN};`
leave behind in `mEmptyDbl`. -/
def mNaN : Mem Dbl :=
  ⟨[⟨⟨.num 0, .cell 0⟩, 1⟩, ⟨⟨.num 0, .cell 1⟩, 1⟩], [some ⟨.nan, .null⟩, some ⟨.nan, .null⟩], 6⟩

/-- Example memory for `Loose`: nothing constructed yet, eight allocations available. -/
def mEmptyLoose : Mem Loose := ⟨[], [], 8⟩

/-- Example memory: what two lists of `Loose`, both built from the one value 5, leave
behind in `mEmptyLoose`. -/
def mLoose : Mem Loose :=
  ⟨[⟨⟨⟨0⟩, .cell 0⟩, 1⟩, ⟨⟨⟨0⟩, .cell 1⟩, 1⟩], [some ⟨⟨5⟩, .null⟩, some ⟨⟨5⟩, .null⟩], 6⟩

end ElementTypes


section SegLemmas

variable {α : Type}

theorem Seg_nil_iff (h : List (Option (Node α))) (p q : NodePtr) :
    Seg h p [] [] q ↔ p = q := by
  simp [Seg]

theorem Seg_cons_iff (h : List (Option (Node α))) (p q : NodePtr) (a : Nat) (as : List Nat)
    (x : α) (xs : List α) :
    Seg h p (a :: as) (x :: xs) q ↔
      p = .cell a ∧ ∃ nx, h[a]? = some (some ⟨x, nx⟩) ∧ Seg h nx as xs q := by
  simp [Seg]

theorem Seg_length {h : List (Option (Node α))} {p q : NodePtr} {as : List Nat} {xs : List α}
    (hs : Seg h p as xs q) : as.length = xs.length := by
  induction as generalizing p xs with
  | nil => cases xs with
    | nil => rfl
    | cons x xs => simp [Seg] at hs
  | cons a as ih => cases xs with
    | nil => simp [Seg] at hs
    | cons x xs =>
      obtain ⟨-, nx, -, hr⟩ := (Seg_cons_iff ..).1 hs
      simp [ih hr]

theorem cell_lt {h : List (Option (Node α))} {a : Nat} {c : Option (Node α)}
    (hc : h[a]? = some c) : a < h.length := by
  by_contra hlt
  rw [List.getElem?_eq_none (Nat.le_of_not_lt hlt)] at hc
  cases hc

theorem Seg_lt {h : List (Option (Node α))} {p q : NodePtr} {as : List Nat} {xs : List α}
    (hs : Seg h p as xs q) : ∀ a ∈ as, a < h.length := by
  induction as generalizing p xs with
  | nil => simp
  | cons a as ih => cases xs with
    | nil => simp [Seg] at hs
    | cons x xs =>
      obtain ⟨-, nx, hc, hr⟩ := (Seg_cons_iff ..).1 hs
      intro b hb
      rcases List.mem_cons.1 hb with rfl | hb
      · exact cell_lt hc
      · exact ih hr b hb

theorem Seg_frame {h h2 : List (Option (Node α))} {p q : NodePtr} {as : List Nat}
    {xs : List α} (hs : Seg h p as xs q)
    (hf : ∀ a ∈ as, h2[a]? = h[a]?) : Seg h2 p as xs q := by
  induction as generalizing p xs with
  | nil => cases xs with
    | nil => simpa [Seg] using hs
    | cons x xs => simp [Seg] at hs
  | cons a as ih => cases xs with
    | nil => simp [Seg] at hs
    | cons x xs =>
      obtain ⟨hp, nx, hc, hr⟩ := (Seg_cons_iff ..).1 hs
      refine (Seg_cons_iff ..).2 ⟨hp, nx, ?_, ih hr fun b hb => hf b (List.mem_cons_of_mem _ hb)⟩
      rw [hf a (List.mem_cons_self _ _)]; exact hc

end SegLemmas

section SegLemmas2

variable {α : Type}

theorem Seg_append_cell {h : List (Option (Node α))} {p q : NodePtr} {as : List Nat}
    {xs : List α} (c : Option (Node α)) (hs : Seg h p as xs q) :
    Seg (h ++ [c]) p as xs q := by
  refine Seg_frame hs fun a ha => ?_
  exact List.getElem?_append_left (Seg_lt hs a ha)

theorem cell_set_ne {β : Type} {h : List β} {a b : Nat} (c : β)
    (hne : a ≠ b) : (h.set a c)[b]? = h[b]? := by
  simp [List.getElem?_set_ne hne]

theorem cell_set_self {β : Type} {h : List β} {a : Nat} (c : β)
    (hlt : a < h.length) : (h.set a c)[a]? = some c := by
  simp [hlt]

theorem cell_append_new (h : List (Option (Node α))) (c : Option (Node α)) :
    (h ++ [c])[h.length]? = some c := by
  simp

theorem cell_append_old {h : List (Option (Node α))} {a : Nat} (c : Option (Node α))
    (hlt : a < h.length) : (h ++ [c])[a]? = h[a]? :=
  List.getElem?_append_left hlt

theorem Seg_set_of_not_mem {h : List (Option (Node α))} {p q : NodePtr} {as : List Nat}
    {xs : List α} {a : Nat} (c : Option (Node α)) (hs : Seg h p as xs q) (ha : a ∉ as) :
    Seg (h.set a c) p as xs q := by
  refine Seg_frame hs fun b hb => cell_set_ne c ?_
  rintro rfl
  exact ha hb

theorem Seg_append {h : List (Option (Node α))} {p r q : NodePtr} {as1 as2 : List Nat}
    {xs1 xs2 : List α} (h1 : Seg h p as1 xs1 r) (h2 : Seg h r as2 xs2 q) :
    Seg h p (as1 ++ as2) (xs1 ++ xs2) q := by
  induction as1 generalizing p xs1 with
  | nil => cases xs1 with
    | nil =>
      have : p = r := by simpa [Seg] using h1
      subst this
      simpa using h2
    | cons x xs => simp [Seg] at h1
  | cons a as ih => cases xs1 with
    | nil => simp [Seg] at h1
    | cons x xs =>
      obtain ⟨hp, nx, hc, hr⟩ := (Seg_cons_iff ..).1 h1
      exact (Seg_cons_iff ..).2 ⟨hp, nx, hc, ih hr⟩

theorem Seg_split {h : List (Option (Node α))} {p q : NodePtr} {as : List Nat}
    {xs : List α} (hs : Seg h p as xs q) (i : Nat) :
    ∃ r, Seg h p (as.take i) (xs.take i) r ∧ Seg h r (as.drop i) (xs.drop i) q := by
  induction i generalizing p as xs with
  | zero => exact ⟨p, by simp [Seg], by simpa using hs⟩
  | succ i ih =>
    cases as with
    | nil => cases xs with
      | nil => exact ⟨p, by simp [Seg], by simpa using hs⟩
      | cons x xs => simp [Seg] at hs
    | cons a as => cases xs with
      | nil => simp [Seg] at hs
      | cons x xs =>
        obtain ⟨hp, nx, hc, hr⟩ := (Seg_cons_iff ..).1 hs
        obtain ⟨r, h1, h2⟩ := ih hr
        exact ⟨r, by simpa using (Seg_cons_iff ..).2 ⟨hp, nx, hc, h1⟩, by simpa using h2⟩

/-- A null-terminated run is determined by its first pointer. -/
theorem Seg_null_unique {h : List (Option (Node α))} {p : NodePtr} {as bs : List Nat}
    {xs ys : List α} (h1 : Seg h p as xs .null) (h2 : Seg h p bs ys .null) :
    as = bs ∧ xs = ys := by
  induction as generalizing p xs bs ys with
  | nil =>
    cases xs with
    | cons x xs => simp [Seg] at h1
    | nil =>
      have hp : p = .null := by simpa [Seg] using h1
      subst hp
      cases bs with
      | nil => cases ys with
        | nil => exact ⟨rfl, rfl⟩
        | cons y ys => simp [Seg] at h2
      | cons b bs => cases ys with
        | nil => simp [Seg] at h2
        | cons y ys => simp [Seg] at h2
  | cons a as ih =>
    cases xs with
    | nil => simp [Seg] at h1
    | cons x xs =>
      obtain ⟨hp, nx, hc, hr⟩ := (Seg_cons_iff ..).1 h1
      subst hp
      cases bs with
      | nil => cases ys with
        | nil => simp [Seg] at h2
        | cons y ys => simp [Seg] at h2
      | cons b bs => cases ys with
        | nil => simp [Seg] at h2
        | cons y ys =>
          obtain ⟨hp2, ny, hc2, hr2⟩ := (Seg_cons_iff ..).1 h2
          cases hp2
          rw [hc] at hc2
          cases hc2
          obtain ⟨e1, e2⟩ := ih hr hr2
          exact ⟨by rw [e1], by rw [e2]⟩

/-- A null-terminated run visits no cell twice. -/
theorem Seg_null_nodup {h : List (Option (Node α))} {p : NodePtr} {as : List Nat}
    {xs : List α} (hs : Seg h p as xs .null) : as.Nodup := by
  induction as generalizing p xs with
  | nil => exact List.nodup_nil
  | cons a as ih =>
    cases xs with
    | nil => simp [Seg] at hs
    | cons x xs =>
      obtain ⟨hp, nx, hc, hr⟩ := (Seg_cons_iff ..).1 hs
      subst hp
      refine List.nodup_cons.2 ⟨fun hmem => ?_, ih hr⟩
      obtain ⟨l1, l2, hl⟩ := List.append_of_mem hmem
      obtain ⟨r, -, hd⟩ := Seg_split hr l1.length
      have hdrop : as.drop l1.length = a :: l2 := by simp [hl]
      rw [hdrop] at hd
      have hr1 : r = .cell a := by
        cases hx : xs.drop l1.length with
        | nil => rw [hx] at hd; simp [Seg] at hd
        | cons y ys => rw [hx] at hd; exact ((Seg_cons_iff ..).1 hd).1
      rw [hr1] at hd
      have hlen := congrArg List.length (Seg_null_unique hs hd).1
      rw [hl] at hlen
      simp at hlen
      omega

theorem Seg_null_length_le {h : List (Option (Node α))} {p : NodePtr} {as : List Nat}
    {xs : List α} (hs : Seg h p as xs .null) : as.length ≤ h.length := by
  have hnd := Seg_null_nodup hs
  have hsub : as.toFinset ⊆ Finset.range h.length := by
    intro a ha
    exact Finset.mem_range.2 (Seg_lt hs a (List.mem_toFinset.1 ha))
  have := Finset.card_le_card hsub
  rwa [List.toFinset_card_of_nodup hnd, Finset.card_range] at this

end SegLemmas2

section ExecLemmas

variable {α : Type}

open SingleLinkedList

theorem readNode_head {m : Mem α} {l : Nat} {L : SingleLinkedList α}
    (hL : m.objs[l]? = some L) : m.readNode (.head l) = .ok L.head_ := by
  simp [Mem.readNode, hL]

theorem readNode_cell {m : Mem α} {a : Nat} {n : Node α}
    (hc : m.heap[a]? = some (some n)) : m.readNode (.cell a) = .ok n := by
  simp [Mem.readNode, hc]

theorem obj_eq {m : Mem α} {l : Nat} {L : SingleLinkedList α}
    (hL : m.objs[l]? = some L) : m.obj l = .ok L := by
  simp [Mem.obj, hL]

theorem objs_lt {m : Mem α} {l : Nat} {L : SingleLinkedList α}
    (hL : m.objs[l]? = some L) : l < m.objs.length := by
  by_contra hlt
  rw [List.getElem?_eq_none (Nat.le_of_not_lt hlt)] at hL
  cases hL

theorem iterate_of_Seg (m : Mem α) {p : NodePtr} {as : List Nat} {xs : List α}
    (hs : Seg m.heap p as xs .null) (fuel : Nat) (hf : as.length < fuel) :
    iterate fuel ⟨p⟩ m = .ok xs := by
  induction as generalizing p xs fuel with
  | nil =>
    cases xs with
    | cons x xs => simp [Seg] at hs
    | nil =>
      have hp : p = .null := by simpa [Seg] using hs
      subst hp
      cases fuel with
      | zero => simp at hf
      | succ fuel => simp [iterate, end_, pure, Except.pure]
  | cons a as ih =>
    cases xs with
    | nil => simp [Seg] at hs
    | cons x xs =>
      obtain ⟨hp, nx, hc, hr⟩ := (Seg_cons_iff ..).1 hs
      subst hp
      cases fuel with
      | zero => simp at hf
      | succ fuel =>
        have hlt : as.length < fuel := by simpa using hf
        simp [iterate, end_, BasicIterator.deref, BasicIterator.incr, readNode_cell hc,
          ih hr fuel hlt, bind, Except.bind, pure, Except.pure]

theorem elements_of_IsList {m : Mem α} {this : Nat} {as : List Nat} {xs : List α} {n : Nat}
    (h : IsList m this as xs n) : elements this m = .ok xs := by
  obtain ⟨L, hL, -, hs⟩ := h
  have hlen := Seg_null_length_le hs
  simp [elements, begin, obj_eq hL, bind, Except.bind, pure, Except.pure]
  exact iterate_of_Seg m hs _ (by omega)

theorem GetSize_of_IsList {m : Mem α} {this : Nat} {as : List Nat} {xs : List α} {n : Nat}
    (h : IsList m this as xs n) : GetSize this m = .ok n := by
  obtain ⟨L, hL, hn, -⟩ := h
  simp [GetSize, obj_eq hL, bind, Except.bind, pure, Except.pure, hn]

theorem PushValue_ok {m : Mem α} {this : Nat} {L : SingleLinkedList α} (v : α)
    (hL : m.objs[this]? = some L) (hb : 0 < m.budget) :
    PushValue this v m = .ok
      { objs := m.objs.set this { L with head_ := { L.head_ with next_node := .cell m.heap.length } }
        heap := m.heap ++ [some ⟨v, L.head_.next_node⟩]
        budget := m.budget - 1 } := by
  have hb0 : m.budget ≠ 0 := by omega
  simp [PushValue, readNode_head hL, Mem.newNode, hb0, Mem.setNext, hL, bind, Except.bind]

theorem PushValue_IsList {m : Mem α} {this : Nat} {as : List Nat} {xs : List α} {n : Nat}
    (v : α) (h : IsList m this as xs n) (hb : 0 < m.budget) :
    ∃ m2, PushValue this v m = .ok m2 ∧ IsList m2 this (m.heap.length :: as) (v :: xs) n ∧
      m2.budget = m.budget - 1 := by
  obtain ⟨L, hL, hn, hs⟩ := h
  refine ⟨_, PushValue_ok v hL hb,
    ⟨{ L with head_ := { L.head_ with next_node := .cell m.heap.length } }, ?_, hn, ?_⟩, rfl⟩
  · simp [objs_lt hL]
  · exact (Seg_cons_iff ..).2 ⟨rfl, L.head_.next_node, cell_append_new _ _, Seg_append_cell _ hs⟩

theorem PushFront_IsList {m : Mem α} {this : Nat} {as : List Nat} {xs : List α} {n : Nat}
    (v : α) (h : IsList m this as xs n) (hb : 0 < m.budget) :
    ∃ m2, PushFront this v m = .ok m2 ∧ IsList m2 this (m.heap.length :: as) (v :: xs) (n + 1) ∧
      m2.budget = m.budget - 1 := by
  obtain ⟨m1, he, ⟨L, hL, hn, hs⟩, hbud⟩ := PushValue_IsList v h hb
  refine ⟨{ m1 with objs := m1.objs.set this { L with size_ := L.size_ + 1 } }, ?_,
    ⟨{ L with size_ := L.size_ + 1 }, ?_, ?_, hs⟩, hbud⟩
  · simp [PushFront, he, obj_eq hL, Mem.setSize, hL, bind, Except.bind]
  · simp [objs_lt hL]
  · simp [hn]

theorem PushValues_IsList {this : Nat} (vs : List α) {m : Mem α} {as : List Nat}
    {xs : List α} {n : Nat} (h : IsList m this as xs n) (hb : vs.length ≤ m.budget) :
    ∃ m2 bs, PushValues this vs m = .ok m2 ∧ IsList m2 this bs (vs.reverse ++ xs) n ∧
      m2.budget = m.budget - vs.length := by
  induction vs generalizing m as xs with
  | nil => exact ⟨m, as, rfl, by simpa using h, by simp⟩
  | cons v vs ih =>
    have hb1 : 0 < m.budget := by simp at hb; omega
    obtain ⟨m1, he, hl, hbud⟩ := PushValue_IsList v h hb1
    have hb2 : vs.length ≤ m1.budget := by simp at hb; omega
    obtain ⟨m2, bs, he2, hl2, hbud2⟩ := ih hl hb2
    refine ⟨m2, bs, ?_, by simpa using hl2, ?_⟩
    · simp [PushValues, he, he2, bind, Except.bind]
    · simp [hbud2, hbud]; omega

end ExecLemmas

section MutatorLemmas

variable {α : Type}

open SingleLinkedList

/-- A chain cut at its `k`-th node: the run up to that node, the node, the run after it. -/
theorem Seg_at {h : List (Option (Node α))} {p q : NodePtr} {as : List Nat} {xs : List α}
    {k a : Nat} (hs : Seg h p as xs q) (ha : as[k]? = some a) :
    ∃ l1 l2 y1 x y2 nx, as = l1 ++ a :: l2 ∧ xs = y1 ++ x :: y2 ∧ l1.length = k ∧
      y1.length = k ∧ Seg h p l1 y1 (.cell a) ∧ h[a]? = some (some ⟨x, nx⟩) ∧
      Seg h nx l2 y2 q := by
  induction k generalizing p as xs with
  | zero =>
    cases as with
    | nil => simp at ha
    | cons b as => cases xs with
      | nil => simp [Seg] at hs
      | cons x xs =>
        obtain ⟨hp, nx, hc, hr⟩ := (Seg_cons_iff ..).1 hs
        have hb : b = a := by simpa using ha
        subst hb
        exact ⟨[], as, [], x, xs, nx, rfl, rfl, rfl, rfl, by simpa [Seg] using hp, hc, hr⟩
  | succ k ih =>
    cases as with
    | nil => simp at ha
    | cons b as => cases xs with
      | nil => simp [Seg] at hs
      | cons x xs =>
        obtain ⟨hp, nx, hc, hr⟩ := (Seg_cons_iff ..).1 hs
        have ha2 : as[k]? = some a := by simpa using ha
        obtain ⟨l1, l2, y1, x2, y2, nx2, e1, e2, hl1, hl2, s1, hc2, s2⟩ := ih hr ha2
        refine ⟨b :: l1, l2, x :: y1, x2, y2, nx2, by simp [e1], by simp [e2], by simp [hl1],
          by simp [hl2], (Seg_cons_iff ..).2 ⟨hp, nx, hc, s1⟩, hc2, s2⟩

theorem PopFront_ok {m : Mem α} {this a : Nat} {L : SingleLinkedList α} {r : Node α}
    (hL : m.objs[this]? = some L) (hn : 0 < L.size_) (hp : L.head_.next_node = .cell a)
    (hc : m.heap[a]? = some (some r)) :
    PopFront this m = .ok
      { objs := m.objs.set this ⟨⟨L.head_.value, r.next_node⟩, L.size_ - 1⟩
        heap := m.heap.set a none
        budget := m.budget } := by
  simp [PopFront, obj_eq hL, hn, hp, readNode_cell hc, Mem.setNext, hL, Mem.deleteNode, hc,
    Mem.obj, Mem.setSize, objs_lt hL, bind, Except.bind]

theorem PopFront_IsList {m : Mem α} {this a : Nat} {as : List Nat} {x : α} {xs : List α}
    {n : Nat} (h : IsList m this (a :: as) (x :: xs) n) (hn : 0 < n) :
    ∃ m2, PopFront this m = .ok m2 ∧ IsList m2 this as xs (n - 1) ∧ m2.budget = m.budget := by
  obtain ⟨L, hL, hsz, hs⟩ := h
  have hnd := Seg_null_nodup hs
  obtain ⟨hp, nx, hc, hr⟩ := (Seg_cons_iff ..).1 hs
  subst hsz
  refine ⟨_, PopFront_ok hL hn hp hc, ⟨⟨⟨L.head_.value, nx⟩, L.size_ - 1⟩, ?_, rfl, ?_⟩, rfl⟩
  · simp [objs_lt hL]
  · exact Seg_set_of_not_mem none hr (List.nodup_cons.1 hnd).1

theorem PopFront_noop {m : Mem α} {this : Nat} {L : SingleLinkedList α}
    (hL : m.objs[this]? = some L) (hn : L.size_ = 0) : PopFront this m = .ok m := by
  simp [PopFront, obj_eq hL, hn, bind, Except.bind, pure, Except.pure]

theorem InsertAfter_head_ok {m : Mem α} {this : Nat} {L : SingleLinkedList α} (v : α)
    (hL : m.objs[this]? = some L) (hb : 0 < m.budget) :
    InsertAfter this ⟨.head this⟩ v m = .ok (⟨.cell m.heap.length⟩,
      { objs := m.objs.set this ⟨⟨L.head_.value, .cell m.heap.length⟩, L.size_ + 1⟩
        heap := m.heap ++ [some ⟨v, L.head_.next_node⟩]
        budget := m.budget - 1 }) := by
  have hb0 : m.budget ≠ 0 := by omega
  simp [InsertAfter, readNode_head hL, Mem.newNode, hb0, Mem.setNext, hL, Mem.obj,
    Mem.setSize, Mem.readNode, objs_lt hL, bind, Except.bind, pure, Except.pure]

theorem InsertAfter_cell_ok {m : Mem α} {this a : Nat} {L : SingleLinkedList α}
    {na : Node α} (v : α) (hL : m.objs[this]? = some L)
    (hc : m.heap[a]? = some (some na)) (hb : 0 < m.budget) :
    InsertAfter this ⟨.cell a⟩ v m = .ok (⟨.cell m.heap.length⟩,
      { objs := m.objs.set this { L with size_ := L.size_ + 1 }
        heap := (m.heap ++ [some (Node.mk v na.next_node)]).set a
          (some (Node.mk na.value (.cell m.heap.length)))
        budget := m.budget - 1 }) := by
  have hb0 : m.budget ≠ 0 := by omega
  have hlt := cell_lt hc
  have hc2 : (m.heap ++ [some (Node.mk v na.next_node)])[a]? = some (some na) := by
    rw [cell_append_old _ hlt, hc]
  have hc3 : ((m.heap ++ [some (Node.mk v na.next_node)]).set a
      (some (Node.mk na.value (.cell m.heap.length))))[a]? =
      some (some (Node.mk na.value (.cell m.heap.length))) :=
    cell_set_self _ (by simp; omega)
  simp only [InsertAfter, Mem.readNode, Mem.newNode, Mem.setNext, Mem.obj, Mem.setSize, hc, hc2,
    hc3, hL, hb0, bind, Except.bind, pure, Except.pure, if_false, reduceCtorEq]

theorem EraseAfter_head_ok {m : Mem α} {this b : Nat} {L : SingleLinkedList α}
    {r : Node α} (hL : m.objs[this]? = some L) (hn : 0 < L.size_)
    (hp : L.head_.next_node = .cell b) (hc : m.heap[b]? = some (some r)) :
    EraseAfter this ⟨.head this⟩ m = .ok (⟨r.next_node⟩,
      { objs := m.objs.set this ⟨⟨L.head_.value, r.next_node⟩, L.size_ - 1⟩
        heap := m.heap.set b none
        budget := m.budget }) := by
  simp [EraseAfter, obj_eq hL, hn, readNode_head hL, hp, readNode_cell hc, Mem.setNext, hL,
    Mem.deleteNode, hc, Mem.obj, Mem.setSize, Mem.readNode, objs_lt hL, bind, Except.bind,
    pure, Except.pure]

theorem EraseAfter_cell_ok {m : Mem α} {this a b : Nat} {L : SingleLinkedList α}
    {na r : Node α} (hL : m.objs[this]? = some L) (hn : 0 < L.size_)
    (hca : m.heap[a]? = some (some na)) (hp : na.next_node = .cell b)
    (hcb : m.heap[b]? = some (some r)) (hab : a ≠ b) :
    EraseAfter this ⟨.cell a⟩ m = .ok (⟨r.next_node⟩,
      { objs := m.objs.set this { L with size_ := L.size_ - 1 }
        heap := (m.heap.set a (some (Node.mk na.value r.next_node))).set b none
        budget := m.budget }) := by
  have hla := cell_lt hca
  have hcb2 : (m.heap.set a (some (Node.mk na.value r.next_node)))[b]? = some (some r) := by
    rw [cell_set_ne _ hab, hcb]
  have hca3 : ((m.heap.set a (some (Node.mk na.value r.next_node))).set b none)[a]? =
      some (some (Node.mk na.value r.next_node)) := by
    rw [cell_set_ne _ (Ne.symm hab), cell_set_self _ hla]
  simp only [EraseAfter, Mem.readNode, Mem.setNext, Mem.deleteNode, Mem.obj, Mem.setSize, hL,
    hn, hca, hp, hcb, hcb2, hca3, bind, Except.bind, pure, Except.pure, if_true, if_false,
    reduceCtorEq]

end MutatorLemmas

section PositionLemmas

variable {α : Type}

open SingleLinkedList

theorem take_append_succ {β : Type} (l1 : List β) (a : β) (l2 : List β) :
    (l1 ++ a :: l2).take (l1.length + 1) = l1 ++ [a] := by
  induction l1 with
  | nil => simp
  | cons b l1 ih => simpa using ih

theorem drop_append_succ {β : Type} (l1 : List β) (a : β) (l2 : List β) :
    (l1 ++ a :: l2).drop (l1.length + 1) = l2 := by
  induction l1 with
  | nil => simp
  | cons b l1 ih => simp

theorem eraseIdx_append_succ {β : Type} (l1 : List β) (a b : β) (l2 : List β) :
    (l1 ++ a :: b :: l2).eraseIdx (l1.length + 1) = l1 ++ a :: l2 := by
  induction l1 with
  | nil => simp
  | cons c l1 ih => simpa using ih

theorem positions_zero {this : Nat} {as : List Nat} {pos : BasicIterator}
    (h : (positions this as)[0]? = some pos) : pos = ⟨.head this⟩ := by
  simp [positions] at h
  exact h.symm

theorem positions_succ {this k : Nat} {as : List Nat} {pos : BasicIterator}
    (h : (positions this as)[k + 1]? = some pos) : ∃ a, as[k]? = some a ∧ pos = ⟨.cell a⟩ := by
  simp only [positions, List.getElem?_cons_succ, List.getElem?_map] at h
  cases ha : as[k]? with
  | none => simp [ha] at h
  | some a => exact ⟨a, rfl, by simpa [ha] using h.symm⟩

theorem InsertAfter_IsList {m : Mem α} {this i : Nat} {as : List Nat} {xs : List α} {n : Nat}
    {pos : BasicIterator} (v : α) (h : IsList m this as xs n) (hb : 0 < m.budget)
    (hpos : (positions this as)[i]? = some pos) :
    ∃ m2, InsertAfter this pos v m = .ok (⟨.cell m.heap.length⟩, m2) ∧
      IsList m2 this (as.take i ++ m.heap.length :: as.drop i)
        (xs.take i ++ v :: xs.drop i) (n + 1) ∧
      pos.incr m2 = .ok ⟨.cell m.heap.length⟩ ∧
      (∃ q, m2.heap[m.heap.length]? = some (some ⟨v, q⟩)) ∧
      m2.budget = m.budget - 1 := by
  obtain ⟨L, hL, hn, hs⟩ := h
  cases i with
  | zero =>
    have hp := positions_zero hpos
    subst hp
    refine ⟨_, InsertAfter_head_ok v hL hb,
      ⟨⟨⟨L.head_.value, .cell m.heap.length⟩, L.size_ + 1⟩, ?_, by simp [hn], ?_⟩, ?_,
      ⟨L.head_.next_node, cell_append_new _ _⟩, rfl⟩
    · simp [objs_lt hL]
    · exact (Seg_cons_iff ..).2
        ⟨rfl, L.head_.next_node, cell_append_new _ _, Seg_append_cell _ hs⟩
    · simp [BasicIterator.incr, Mem.readNode, objs_lt hL, bind, Except.bind, pure, Except.pure]
  | succ k =>
    obtain ⟨a, hak, hp⟩ := positions_succ hpos
    subst hp
    have hnd := Seg_null_nodup hs
    obtain ⟨l1, l2, y1, x, y2, nx, e1, e2, hl1, hl2, s1, hc, s2⟩ := Seg_at hs hak
    subst e1 e2
    have hlt := cell_lt hc
    have hnot1 : a ∉ l1 := fun hmem =>
      (List.nodup_append.1 hnd).2.2 hmem (List.mem_cons_self _ _)
    have hnot2 : a ∉ l2 := (List.nodup_cons.1 (List.nodup_append.1 hnd).2.1).1
    have hne : a ≠ m.heap.length := by omega
    have hca : ((m.heap ++ [some (Node.mk v nx)]).set a
        (some (Node.mk x (.cell m.heap.length))))[a]? =
        some (some (Node.mk x (.cell m.heap.length))) :=
      cell_set_self _ (by simp; omega)
    have hcn : ((m.heap ++ [some (Node.mk v nx)]).set a
        (some (Node.mk x (.cell m.heap.length))))[m.heap.length]? =
        some (some (Node.mk v nx)) := by
      rw [cell_set_ne _ hne, cell_append_new]
    refine ⟨_, InsertAfter_cell_ok v hL hc hb,
      ⟨{ L with size_ := L.size_ + 1 }, ?_, by simp [hn], ?_⟩, ?_, ⟨nx, hcn⟩, rfl⟩
    · simp [objs_lt hL]
    · have t1 := Seg_set_of_not_mem (some (Node.mk x (.cell m.heap.length)))
        (Seg_append_cell (some (Node.mk v nx)) s1) hnot1
      have t2 := Seg_set_of_not_mem (some (Node.mk x (.cell m.heap.length)))
        (Seg_append_cell (some (Node.mk v nx)) s2) hnot2
      have t3 := Seg_append t1 ((Seg_cons_iff ..).2 ⟨rfl, _, hca, (Seg_cons_iff ..).2
        ⟨rfl, _, hcn, t2⟩⟩)
      subst hl1
      rw [take_append_succ, drop_append_succ, ← hl2, take_append_succ, drop_append_succ]
      simpa using t3
    · simp [BasicIterator.incr, Mem.readNode, hca, bind, Except.bind, pure, Except.pure]

theorem EraseAfter_IsList {m : Mem α} {this i : Nat} {as : List Nat} {xs : List α} {n : Nat}
    {pos : BasicIterator} (h : IsList m this as xs n) (hn : 0 < n)
    (hpos : (positions this as)[i]? = some pos) (hi : i < as.length) :
    ∃ it m2, EraseAfter this pos m = .ok (it, m2) ∧
      IsList m2 this (as.eraseIdx i) (xs.eraseIdx i) (n - 1) ∧
      pos.incr m2 = .ok it ∧
      Seg m2.heap it.node_ (as.drop (i + 1)) (xs.drop (i + 1)) .null ∧
      m2.budget = m.budget := by
  obtain ⟨L, hL, hsz, hs⟩ := h
  have hnd := Seg_null_nodup hs
  subst hsz
  cases i with
  | zero =>
    have hp := positions_zero hpos
    subst hp
    cases as with
    | nil => simp at hi
    | cons b as => cases xs with
      | nil => simp [Seg] at hs
      | cons x xs =>
        obtain ⟨hp, nx, hc, hr⟩ := (Seg_cons_iff ..).1 hs
        have hr2 := Seg_set_of_not_mem none hr (List.nodup_cons.1 hnd).1
        refine ⟨_, _, EraseAfter_head_ok hL hn hp hc,
          ⟨⟨⟨L.head_.value, nx⟩, L.size_ - 1⟩, ?_, rfl, hr2⟩, ?_, hr2, rfl⟩
        · simp [objs_lt hL]
        · simp [BasicIterator.incr, Mem.readNode, objs_lt hL, bind, Except.bind, pure,
            Except.pure]
  | succ k =>
    obtain ⟨a, hak, hp⟩ := positions_succ hpos
    subst hp
    obtain ⟨l1, l2, y1, x, y2, nx, e1, e2, hl1, hl2, s1, hc, s2⟩ := Seg_at hs hak
    subst e1 e2 hl1
    cases l2 with
    | nil => simp at hi
    | cons b l2 => cases y2 with
      | nil => simp [Seg] at s2
      | cons y y2 =>
        obtain ⟨hp, ny, hcb, hr⟩ := (Seg_cons_iff ..).1 s2
        have hnd2 := (List.nodup_append.1 hnd).2.1
        have hnot1 : a ∉ l1 := fun hmem =>
          (List.nodup_append.1 hnd).2.2 hmem (List.mem_cons_self _ _)
        have hnotb1 : b ∉ l1 := fun hmem =>
          (List.nodup_append.1 hnd).2.2 hmem (List.mem_cons_of_mem _ (List.mem_cons_self _ _))
        have hab : a ≠ b := fun e =>
          (List.nodup_cons.1 hnd2).1 (e ▸ List.mem_cons_self _ _)
        have hnot2 : a ∉ l2 := fun hmem =>
          (List.nodup_cons.1 hnd2).1 (List.mem_cons_of_mem _ hmem)
        have hnotb2 : b ∉ l2 := (List.nodup_cons.1 (List.nodup_cons.1 hnd2).2).1
        have hca : ((m.heap.set a (some (Node.mk x ny))).set b none)[a]? =
            some (some (Node.mk x ny)) := by
          rw [cell_set_ne _ (Ne.symm hab), cell_set_self _ (cell_lt hc)]
        have t1 := Seg_set_of_not_mem none
          (Seg_set_of_not_mem (some (Node.mk x ny)) s1 hnot1) hnotb1
        have t2 := Seg_set_of_not_mem none
          (Seg_set_of_not_mem (some (Node.mk x ny)) hr hnot2) hnotb2
        have t3 := Seg_append t1 ((Seg_cons_iff ..).2 ⟨rfl, _, hca, t2⟩)
        refine ⟨_, _, EraseAfter_cell_ok hL hn hc hp hcb hab,
          ⟨{ L with size_ := L.size_ - 1 }, ?_, rfl, ?_⟩, ?_, ?_, rfl⟩
        · simp [objs_lt hL]
        · rw [eraseIdx_append_succ, ← hl2, eraseIdx_append_succ]
          exact t3
        · simp [BasicIterator.incr, Mem.readNode, hca, bind, Except.bind, pure, Except.pure]
        · have d1 : (l1 ++ a :: b :: l2).drop (l1.length + 1 + 1) = l2 := by
            rw [show l1 ++ a :: b :: l2 = (l1 ++ [a]) ++ b :: l2 by simp,
              show l1.length + 1 = (l1 ++ [a]).length by simp, drop_append_succ]
          have d2 : (y1 ++ x :: y :: y2).drop (l1.length + 1 + 1) = y2 := by
            rw [show y1 ++ x :: y :: y2 = (y1 ++ [x]) ++ y :: y2 by simp,
              show l1.length + 1 = (y1 ++ [x]).length by simp [hl2], drop_append_succ]
          rw [d1, d2]
          exact t2

end PositionLemmas

section IteratorLemmas

variable {α : Type}

open SingleLinkedList

theorem PushFront_ok {m : Mem α} {this : Nat} {L : SingleLinkedList α} (v : α)
    (hL : m.objs[this]? = some L) (hb : 0 < m.budget) :
    PushFront this v m = .ok
      { objs := m.objs.set this ⟨⟨L.head_.value, .cell m.heap.length⟩, L.size_ + 1⟩
        heap := m.heap ++ [some ⟨v, L.head_.next_node⟩]
        budget := m.budget - 1 } := by
  simp [PushFront, PushValue_ok v hL hb, Mem.obj, Mem.setSize, objs_lt hL, bind, Except.bind]

/-- What the iterator at the head of a null-terminated run refers to: the first value of
the run, or nothing when the run is empty. -/
theorem deref_of_Seg {m : Mem α} {it : BasicIterator} {as : List Nat} {xs : List α}
    (hs : Seg m.heap it.node_ as xs .null) :
    match xs[0]? with
    | some y => it.deref m = .ok y
    | none => it = end_ := by
  cases as with
  | nil => cases xs with
    | nil =>
      have hp : it.node_ = .null := by simpa [Seg] using hs
      cases it
      simp_all [end_]
    | cons x xs => simp [Seg] at hs
  | cons a as => cases xs with
    | nil => simp [Seg] at hs
    | cons x xs =>
      obtain ⟨hp, nx, hc, -⟩ := (Seg_cons_iff ..).1 hs
      simp [BasicIterator.deref, hp, readNode_cell hc, bind, Except.bind, pure, Except.pure]

theorem eraseIdx_last {β : Type} (l : List β) (i : Nat) (hi : i + 1 = l.length) :
    l.eraseIdx i = l.dropLast := by
  rw [List.eraseIdx_eq_take_drop_succ, List.dropLast_eq_take, List.drop_of_length_le (by omega)]
  simp [← hi]

end IteratorLemmas

section CopyLemmas

variable {α : Type}

open SingleLinkedList

/-- The copy loop, entered with `prev_ptr` at a heap node `c` whose link is null: it
returns, having hung a fresh null-terminated run with the source values behind `c`, and
having written nowhere else in the memory it was given. -/
theorem CopyLoop_cell (as : List Nat) : ∀ (xs : List α) (fuel : Nat) (m : Mem α)
    (it : BasicIterator) (c : Nat) (y : α),
    Seg m.heap it.node_ as xs .null → c ∉ as → m.heap[c]? = some (some ⟨y, .null⟩) →
    as.length < fuel → as.length ≤ m.budget →
    ∃ m2 fresh, CopyLoop fuel it (.cell c) m = .ok m2 ∧
      Seg m2.heap (.cell c) (c :: fresh) (y :: xs) .null ∧
      (∀ d ∈ fresh, m.heap.length ≤ d) ∧
      (∀ a, a < m.heap.length → a ≠ c → m2.heap[a]? = m.heap[a]?) ∧
      m2.objs = m.objs ∧ m2.budget = m.budget - xs.length ∧
      m.heap.length ≤ m2.heap.length := by
  induction as with
  | nil =>
    intro xs fuel m it c y hs _ hc hf _
    cases xs with
    | cons x xs => simp [Seg] at hs
    | nil =>
      have hp : it.node_ = .null := by simpa [Seg] using hs
      cases fuel with
      | zero => simp at hf
      | succ fuel =>
        refine ⟨m, [], ?_, (Seg_cons_iff ..).2 ⟨rfl, _, hc, rfl⟩, by simp, fun _ _ _ => rfl,
          rfl, by simp, Nat.le_refl _⟩
        cases it
        simp_all [CopyLoop, end_, pure, Except.pure]
  | cons a as ih =>
    intro xs fuel m it c y hs hnot hc hf hb
    cases xs with
    | nil => simp [Seg] at hs
    | cons x xs =>
      obtain ⟨hp, nx, hca, hr⟩ := (Seg_cons_iff ..).1 hs
      cases fuel with
      | zero => simp at hf
      | succ fuel =>
        have hac : a ≠ c := fun e => hnot (e ▸ List.mem_cons_self _ _)
        have hcas : c ∉ as := fun hmem => hnot (List.mem_cons_of_mem _ hmem)
        have hlc := cell_lt hc
        have hla := cell_lt hca
        have hb0 : m.budget ≠ 0 := by simp at hb; omega
        have hltas := Seg_lt hr
        -- the memory after `new Node` and `prev_ptr->next_node = next_ptr`
        have hc1 : (m.heap ++ [some (Node.mk x .null)])[c]? = some (some ⟨y, .null⟩) := by
          rw [cell_append_old _ hlc, hc]
        have ha2 : ((m.heap ++ [some (Node.mk x .null)]).set c
            (some (Node.mk y (.cell m.heap.length))))[a]? = some (some ⟨x, nx⟩) := by
          rw [cell_set_ne _ (Ne.symm hac), cell_append_old _ hla, hca]
        have hn2 : ((m.heap ++ [some (Node.mk x .null)]).set c
            (some (Node.mk y (.cell m.heap.length))))[m.heap.length]? =
            some (some ⟨x, .null⟩) := by
          rw [cell_set_ne _ (Nat.ne_of_lt hlc), cell_append_new]
        have hc2 : ((m.heap ++ [some (Node.mk x .null)]).set c
            (some (Node.mk y (.cell m.heap.length))))[c]? =
            some (some ⟨y, .cell m.heap.length⟩) :=
          cell_set_self _ (by simp; omega)
        have hr2 : Seg ((m.heap ++ [some (Node.mk x .null)]).set c
            (some (Node.mk y (.cell m.heap.length)))) nx as xs .null :=
          Seg_set_of_not_mem _ (Seg_append_cell _ hr) hcas
        have hfresh : m.heap.length ∉ as := fun hmem => Nat.lt_irrefl _ (hltas _ hmem)
        obtain ⟨m2, fresh, he, hseg, hfr, hframe, hobjs, hbud, hlen⟩ :=
          ih xs fuel
            { objs := m.objs
              heap := (m.heap ++ [some (Node.mk x .null)]).set c
                (some (Node.mk y (.cell m.heap.length)))
              budget := m.budget - 1 }
            ⟨nx⟩ m.heap.length x hr2 hfresh hn2 (by simpa using hf) (by simp at hb ⊢; omega)
        simp only [List.length_set, List.length_append, List.length_singleton] at hfr hframe hlen
        refine ⟨m2, m.heap.length :: fresh, ?_, ?_, ?_, ?_, hobjs, ?_, by omega⟩
        · have hne : it ≠ end_ := by
            intro e
            rw [e] at hp
            cases hp
          simp only [CopyLoop, hne, BasicIterator.deref, BasicIterator.incr, hp, Mem.readNode,
            Mem.newNode, Mem.setNext, hca, hc1, ha2, hb0, bind, Except.bind, pure, Except.pure,
            if_true, if_false, ne_eq, not_false_eq_true, reduceCtorEq]
          exact he
        · refine (Seg_cons_iff ..).2 ⟨rfl, _, ?_, hseg⟩
          rw [hframe c (by omega) (Nat.ne_of_lt hlc), hc2]
        · intro d hd
          rcases List.mem_cons.1 hd with rfl | hd
          · exact Nat.le_refl _
          · exact Nat.le_of_succ_le (hfr d hd)
        · intro b hb1 hbc
          rw [hframe b (by omega) (Nat.ne_of_lt hb1), cell_set_ne _ (Ne.symm hbc),
            cell_append_old _ hb1]
        · simp only [hbud, List.length_cons]
          omega

theorem set_same {β : Type} {l : List β} {i : Nat} {x : β} (h : l[i]? = some x) :
    l.set i x = l := by
  apply List.ext_getElem?
  intro j
  by_cases hij : i = j
  · subst hij
    rw [h]
    have hlt : i < l.length := by
      by_contra hn
      rw [List.getElem?_eq_none (Nat.le_of_not_lt hn)] at h
      cases h
    simp [hlt]
  · simp [List.getElem?_set_ne hij]

/-- The member `swap` on two different list objects: the chains and the size counters
change places, the sentinels keep their own values, nothing else is written. -/
theorem swap_ok {m : Mem α} {this other : Nat} {A B : SingleLinkedList α}
    (hA : m.objs[this]? = some A) (hB : m.objs[other]? = some B) (hne : this ≠ other) :
    swap this other m = .ok
      { m with objs := ((m.objs.set this ⟨⟨A.head_.value, B.head_.next_node⟩, B.size_⟩).set
          other ⟨⟨B.head_.value, A.head_.next_node⟩, A.size_⟩) } := by
  have hlA := objs_lt hA
  have hlB := objs_lt hB
  have h1 : (m.objs.set this ⟨⟨A.head_.value, B.head_.next_node⟩, A.size_⟩)[other]? = some B := by
    rw [List.getElem?_set_ne hne, hB]
  have h2 : ((m.objs.set this ⟨⟨A.head_.value, B.head_.next_node⟩, A.size_⟩).set other
      ⟨⟨B.head_.value, A.head_.next_node⟩, B.size_⟩)[this]? =
      some ⟨⟨A.head_.value, B.head_.next_node⟩, A.size_⟩ := by
    rw [List.getElem?_set_ne (Ne.symm hne)]
    simp [hlA]
  have h3 : ((m.objs.set this ⟨⟨A.head_.value, B.head_.next_node⟩, A.size_⟩).set other
      ⟨⟨B.head_.value, A.head_.next_node⟩, B.size_⟩)[other]? =
      some ⟨⟨B.head_.value, A.head_.next_node⟩, B.size_⟩ := by
    simp [hlB]
  have h4 : (((m.objs.set this ⟨⟨A.head_.value, B.head_.next_node⟩, A.size_⟩).set other
      ⟨⟨B.head_.value, A.head_.next_node⟩, B.size_⟩).set this
      ⟨⟨A.head_.value, B.head_.next_node⟩, B.size_⟩)[other]? =
      some ⟨⟨B.head_.value, A.head_.next_node⟩, B.size_⟩ := by
    rw [List.getElem?_set_ne hne, h3]
  simp only [swap, Mem.readNode, Mem.setNext, Mem.obj, Mem.setSize, hA, hB, h1, h2, h3, h4,
    bind, Except.bind]
  congr 2
  apply List.ext_getElem?
  intro j
  simp only [List.getElem?_set, List.length_set]
  by_cases ho : other = j <;> by_cases ht : this = j <;> simp [ho, ht]

/-- The loop of `Clear()` on a list whose chain is the null-terminated run `as`: it
returns, every cell of the run is deleted, the sentinel link is null, and nothing else is
written. -/
theorem ClearLoop_ok (this : Nat) (as : List Nat) : ∀ (xs : List α) (fuel : Nat) (m : Mem α)
    (L : SingleLinkedList α), m.objs[this]? = some L →
    Seg m.heap L.head_.next_node as xs .null → as.length < fuel →
    ∃ m2, ClearLoop this fuel m = .ok m2 ∧
      m2.objs = m.objs.set this ⟨⟨L.head_.value, .null⟩, L.size_⟩ ∧
      m2.budget = m.budget ∧ m2.heap.length = m.heap.length ∧
      (∀ a, a ∉ as → m2.heap[a]? = m.heap[a]?) ∧
      (∀ a ∈ as, m2.heap[a]? = some none) := by
  induction as with
  | nil =>
    intro xs fuel m L hL hs hf
    cases xs with
    | cons x xs => simp [Seg] at hs
    | nil =>
      have hp : L.head_.next_node = .null := by simpa [Seg] using hs
      cases fuel with
      | zero => simp at hf
      | succ fuel =>
        refine ⟨m, ?_, ?_, rfl, rfl, fun _ _ => rfl, by simp⟩
        · simp [ClearLoop, Mem.readNode, hL, hp, bind, Except.bind, pure, Except.pure]
        · have hLeq : (⟨⟨L.head_.value, .null⟩, L.size_⟩ : SingleLinkedList α) = L := by
            cases L with
            | mk hd sz => cases hd with
              | mk v nx => simp_all
          rw [hLeq, set_same hL]
  | cons a as ih =>
    intro xs fuel m L hL hs hf
    cases xs with
    | nil => simp [Seg] at hs
    | cons x xs =>
      have hnd := Seg_null_nodup hs
      obtain ⟨hp, nx, hc, hr⟩ := (Seg_cons_iff ..).1 hs
      cases fuel with
      | zero => simp at hf
      | succ fuel =>
        have hnot : a ∉ as := (List.nodup_cons.1 hnd).1
        have hlt := objs_lt hL
        have hla := cell_lt hc
        obtain ⟨m2, he, hobjs, hbud, hlen, hframe, hfreed⟩ :=
          ih xs fuel
            { objs := m.objs.set this ⟨⟨L.head_.value, nx⟩, L.size_⟩
              heap := m.heap.set a none
              budget := m.budget }
            ⟨⟨L.head_.value, nx⟩, L.size_⟩ (by simp [hlt])
            (Seg_set_of_not_mem none hr hnot) (by simpa using hf)
        refine ⟨m2, ?_, ?_, hbud, by simpa using hlen, ?_, ?_⟩
        · simp only [ClearLoop, Mem.readNode, Mem.deleteNode, Mem.setNext, hL, hp, hc, bind,
            Except.bind, ne_eq, not_false_eq_true, if_true, reduceCtorEq]
          exact he
        · rw [hobjs, List.set_set]
        · intro b hb
          have hba : a ≠ b := fun e => hb (e ▸ List.mem_cons_self _ _)
          rw [hframe b (fun hmem => hb (List.mem_cons_of_mem _ hmem)), cell_set_ne _ hba]
        · intro b hb
          rcases List.mem_cons.1 hb with rfl | hb
          · rw [hframe b hnot, cell_set_self _ hla]
          · exact hfreed b hb

/-- The member `Clear()` on a list whose chain is the null-terminated run `as`. -/
theorem Clear_ok {m : Mem α} {this : Nat} {as : List Nat} {xs : List α}
    {L : SingleLinkedList α} (hL : m.objs[this]? = some L)
    (hs : Seg m.heap L.head_.next_node as xs .null) :
    ∃ m2, Clear this m = .ok m2 ∧
      m2.objs = m.objs.set this ⟨⟨L.head_.value, .null⟩, 0⟩ ∧
      m2.budget = m.budget ∧ m2.heap.length = m.heap.length ∧
      (∀ a, a ∉ as → m2.heap[a]? = m.heap[a]?) ∧
      (∀ a ∈ as, m2.heap[a]? = some none) := by
  have hlen := Seg_null_length_le hs
  obtain ⟨m1, he, hobjs, hbud, hl, hframe, hfreed⟩ :=
    ClearLoop_ok this as xs (m.heap.length + 1) m L hL hs (by omega)
  have h1 : m1.objs[this]? = some ⟨⟨L.head_.value, .null⟩, L.size_⟩ := by
    rw [hobjs]
    simp [objs_lt hL]
  refine ⟨{ m1 with objs := m1.objs.set this ⟨⟨L.head_.value, .null⟩, 0⟩ }, ?_, ?_, hbud, hl,
    hframe, hfreed⟩
  · simp only [Clear, he, Mem.setSize, h1, bind, Except.bind]
  · simp only [hobjs, List.set_set]

/-- The throwing part of the copy constructor, run with enough allocations left: it
returns, `temp` holds the size of `other`, and the new chain, a copy of the source
values, hangs behind the sentinel of `this` (not of `temp`). -/
theorem ctor_copy_build_ok {M : Mem α} {this temp other : Nat} {as : List Nat} {xs : List α}
    {n : Nat} {T U : SingleLinkedList α} (h : IsList M other as xs n)
    (hT : M.objs[this]? = some T) (hTn : T.head_.next_node = .null)
    (hU : M.objs[temp]? = some U) (hne1 : this ≠ temp) (hne2 : temp ≠ other)
    (hb : xs.length ≤ M.budget) :
    ∃ mB q fresh, ctor_copy_build this temp other M = .ok mB ∧
      mB.objs = (M.objs.set temp ⟨U.head_, n⟩).set this ⟨⟨T.head_.value, q⟩, T.size_⟩ ∧
      Seg mB.heap q fresh xs .null ∧ (∀ c ∈ fresh, M.heap.length ≤ c) ∧
      (∀ a, a < M.heap.length → mB.heap[a]? = M.heap[a]?) ∧
      mB.budget = M.budget - xs.length := by
  obtain ⟨O, hO, hn, hs⟩ := h
  have hO1 : (M.objs.set temp ⟨U.head_, O.size_⟩)[other]? = some O := by
    rw [List.getElem?_set_ne hne2, hO]
  have hT1 : (M.objs.set temp ⟨U.head_, O.size_⟩)[this]? = some T := by
    rw [List.getElem?_set_ne (Ne.symm hne1), hT]
  subst hn
  cases as with
  | nil =>
    cases xs with
    | cons x xs => simp [Seg] at hs
    | nil =>
      have hp : O.head_.next_node = .null := by simpa [Seg] using hs
      refine ⟨{ M with objs := M.objs.set temp ⟨U.head_, O.size_⟩ }, .null, [], ?_, ?_, rfl,
        by simp, fun _ _ => rfl, by simp⟩
      · simp only [ctor_copy_build, Mem.obj, Mem.setSize, begin, hO, hU, hO1, hp, end_, bind,
          Except.bind, pure, Except.pure, ne_eq, not_true_eq_false, if_false]
      · have hTeq : (⟨⟨T.head_.value, .null⟩, T.size_⟩ : SingleLinkedList α) = T := by
          cases T with
          | mk hd sz => cases hd with
            | mk v nx => simp_all
        simp only [hTeq, set_same hT1]
  | cons a as =>
    cases xs with
    | nil => simp [Seg] at hs
    | cons x xs =>
      obtain ⟨hp, nx, hc, hr⟩ := (Seg_cons_iff ..).1 hs
      have hla := cell_lt hc
      have hb0 : M.budget ≠ 0 := by simp at hb; omega
      have hc1 : (M.heap ++ [some (Node.mk x .null)])[a]? = some (some ⟨x, nx⟩) := by
        rw [cell_append_old _ hla, hc]
      have hfresh : M.heap.length ∉ as := fun hmem => Nat.lt_irrefl _ (Seg_lt hr _ hmem)
      have hlen := Seg_length hr
      obtain ⟨m2, fresh, he, hseg, hfr, hframe, hobjs, hbud, -⟩ :=
        CopyLoop_cell as xs M.budget
          { objs := (M.objs.set temp ⟨U.head_, O.size_⟩).set this
              ⟨⟨T.head_.value, .cell M.heap.length⟩, T.size_⟩
            heap := M.heap ++ [some (Node.mk x .null)]
            budget := M.budget - 1 }
          ⟨nx⟩ M.heap.length x (Seg_append_cell _ hr) hfresh (cell_append_new _ _)
          (by simp at hb; omega) (by simp at hb ⊢; omega)
      simp only [List.length_append, List.length_singleton] at hfr hframe
      refine ⟨m2, .cell M.heap.length, M.heap.length :: fresh, ?_, hobjs, hseg, ?_, ?_, ?_⟩
      · have hne : (⟨.cell a⟩ : BasicIterator) ≠ end_ := by simp [end_]
        simp only [ctor_copy_build, Mem.obj, Mem.setSize, begin, hO, hU, hO1, hp, hne, CopyLoop,
          BasicIterator.deref, BasicIterator.incr, Mem.readNode, Mem.newNode, Mem.setNext, hc,
          hc1, hT1, hb0, bind, Except.bind, pure, Except.pure, ne_eq, not_false_eq_true,
          if_true, if_false, reduceCtorEq]
        exact he
      · intro c hcm
        rcases List.mem_cons.1 hcm with rfl | hcm
        · exact Nat.le_refl _
        · exact Nat.le_of_succ_le (hfr c hcm)
      · intro b hb1
        rw [hframe b (by omega) (Nat.ne_of_lt hb1), cell_append_old _ hb1]
      · simp only [hbud, List.length_cons]
        omega

theorem two_get0 {β : Type} (l : List β) (x y : β) : (l ++ [x] ++ [y])[l.length]? = some x := by
  induction l with
  | nil => rfl
  | cons b l ih => simpa using ih

theorem two_get1 {β : Type} (l : List β) (x y : β) :
    (l ++ [x] ++ [y])[l.length + 1]? = some y := by
  induction l with
  | nil => rfl
  | cons b l ih => simpa using ih

theorem two_get_old {β : Type} (l : List β) (x y : β) {i : Nat} (hi : i < l.length) :
    (l ++ [x] ++ [y])[i]? = l[i]? := by
  rw [List.append_assoc, List.getElem?_append_left hi]

theorem two_set0 {β : Type} (l : List β) (x y z : β) :
    (l ++ [x] ++ [y]).set l.length z = l ++ [z] ++ [y] := by
  induction l with
  | nil => rfl
  | cons b l ih => simp

theorem two_set1 {β : Type} (l : List β) (x y z : β) :
    (l ++ [x] ++ [y]).set (l.length + 1) z = l ++ [x] ++ [z] := by
  induction l with
  | nil => rfl
  | cons b l ih => simp

/-- The copy constructor on a well-formed source, with enough allocations left: it
returns a new list object whose size counter is the source's but whose chain is empty
(whatever the source held), and the source keeps its chain, values and size. -/
theorem ctor_copy_IsList [Inhabited α] {m : Mem α} {other : Nat} {as : List Nat}
    {xs : List α} {n : Nat} (h : IsList m other as xs n) (hb : xs.length ≤ m.budget) :
    ∃ m2, ctor_copy other m = .ok (m.objs.length, m2) ∧
      IsList m2 m.objs.length [] [] n ∧ IsList m2 other as xs n ∧
      m2.objs = m.objs ++ [⟨⟨default, .null⟩, n⟩] ∧
      (∀ a, a < m.heap.length → m2.heap[a]? = m.heap[a]?) ∧
      m2.budget = m.budget - xs.length := by
  obtain ⟨O, hO, hn, hs⟩ := h
  have hlo : other < m.objs.length := objs_lt hO
  have hasl : ∀ a ∈ as, a < m.heap.length := Seg_lt hs
  -- the memory once storage for the new object and for `temp` exists
  have hA : IsList
      { m with objs := m.objs ++ [SingleLinkedList.mk (Node.mk default .null) 0] ++
          [SingleLinkedList.mk (Node.mk default .null) 0] } other as xs n :=
    ⟨O, by rw [two_get_old _ _ _ hlo, hO], hn, hs⟩
  obtain ⟨mB, q, fresh, heB, hobjsB, hsegB, hfreshB, hframeB, hbudB⟩ :=
    ctor_copy_build_ok hA (two_get0 _ _ _) rfl (two_get1 _ _ _) (by omega) (by omega) hb
  have hobjsB2 : mB.objs = m.objs ++ [SingleLinkedList.mk (Node.mk default q) 0] ++
      [SingleLinkedList.mk (Node.mk default .null) n] := by
    rw [hobjsB]
    simp only [two_set1, two_set0]
  -- `this->swap(temp)`
  have hsw := swap_ok (hobjsB2 ▸ two_get0 m.objs (SingleLinkedList.mk (Node.mk default q) 0)
      (SingleLinkedList.mk (Node.mk default .null) n))
    (hobjsB2 ▸ two_get1 m.objs (SingleLinkedList.mk (Node.mk default q) 0)
      (SingleLinkedList.mk (Node.mk default .null) n)) (Nat.ne_of_lt (Nat.lt_succ_self _))
  simp only [hobjsB2, two_set1, two_set0] at hsw
  -- the destructor of `temp`
  obtain ⟨mD, heD, hobjsD, hbudD, -, hframeD, -⟩ :=
    @Clear_ok α { mB with objs := m.objs ++ [SingleLinkedList.mk (Node.mk default .null) n] ++
        [SingleLinkedList.mk (Node.mk default q) 0] } (m.objs.length + 1) fresh xs _
      (two_get1 m.objs (SingleLinkedList.mk (Node.mk default .null) n)
        (SingleLinkedList.mk (Node.mk default q) 0)) hsegB
  simp only [two_set1] at hobjsD
  have hframe : ∀ a, a < m.heap.length → mD.heap[a]? = m.heap[a]? := by
    intro a ha
    rw [hframeD a (fun hmem => Nat.lt_irrefl _ (Nat.lt_of_lt_of_le ha (hfreshB a hmem))),
      hframeB a ha]
  have hfin : mD.popObj.objs = m.objs ++ [SingleLinkedList.mk (Node.mk default .null) n] := by
    simp only [Mem.popObj, hobjsD, List.dropLast_concat]
  refine ⟨mD.popObj, ?_, ⟨⟨⟨default, .null⟩, n⟩, ?_, rfl, rfl⟩, ⟨O, ?_, hn, ?_⟩, hfin, hframe, ?_⟩
  · simp only [ctor_copy, Mem.newObj, List.length_append, List.length_singleton, heB, hsw,
      destroy, heD, bind, Except.bind, pure, Except.pure]
  · rw [hfin]
    simp
  · rw [hfin, List.getElem?_append_left hlo, hO]
  · exact Seg_frame hs fun a ha => hframe a (hasl a ha)
  · show mD.budget = _
    rw [hbudD]
    exact hbudB

/-- Copy assignment between two different well-formed lists with disjoint chains, with
enough allocations left: it returns, the target takes the size counter of the source but
is left with an empty chain, and the source is untouched. -/
theorem assign_IsList [Inhabited α] {m : Mem α} {this rhs : Nat} {as1 as2 : List Nat}
    {xs1 xs2 : List α} {n1 n2 : Nat} (h1 : IsList m this as1 xs1 n1)
    (h2 : IsList m rhs as2 xs2 n2) (hne : this ≠ rhs) (hdis : ∀ a ∈ as1, a ∉ as2)
    (hb : xs2.length ≤ m.budget) :
    ∃ m2, assign this rhs m = .ok m2 ∧ IsList m2 this [] [] n2 ∧ IsList m2 rhs as2 xs2 n2 := by
  obtain ⟨mC, heC, -, hrC, hobjsC, hframeC, -⟩ := ctor_copy_IsList h2 hb
  obtain ⟨A, hA, hn1, hs1⟩ := h1
  obtain ⟨B, hB, hn2, hs2⟩ := hrC
  have hlt := objs_lt hA
  have hlr := objs_lt hB
  rw [hobjsC, List.length_append, List.length_singleton] at hlr
  have hltC : this < m.objs.length := hlt
  have hAC : mC.objs[this]? = some A := by
    rw [hobjsC, List.getElem?_append_left hlt, hA]
  have hTC : mC.objs[m.objs.length]? = some ⟨⟨default, .null⟩, n2⟩ := by
    rw [hobjsC]
    simp
  have hsw := swap_ok hAC hTC (Nat.ne_of_lt hltC)
  have hs1C : Seg mC.heap A.head_.next_node as1 xs1 .null :=
    Seg_frame hs1 fun a ha => hframeC a (Seg_lt hs1 a ha)
  have hTS : ((mC.objs.set this ⟨⟨A.head_.value, .null⟩, n2⟩).set m.objs.length
      ⟨⟨default, A.head_.next_node⟩, A.size_⟩)[m.objs.length]? =
      some ⟨⟨default, A.head_.next_node⟩, A.size_⟩ := by
    apply cell_set_self
    rw [List.length_set, hobjsC]
    simp
  obtain ⟨mD, heD, hobjsD, -, -, hframeD, -⟩ :=
    @Clear_ok α { mC with objs := ((mC.objs.set this ⟨⟨A.head_.value, .null⟩, n2⟩).set
        m.objs.length ⟨⟨default, A.head_.next_node⟩, A.size_⟩) } m.objs.length as1 xs1 _ hTS hs1C
  have hrne : rhs ≠ m.objs.length := by
    intro e
    have hO := h2
    obtain ⟨O, hO, -, -⟩ := hO
    exact Nat.lt_irrefl _ (e ▸ objs_lt hO)
  have hfinThis : mD.popObj.objs[this]? = some ⟨⟨A.head_.value, .null⟩, n2⟩ := by
    simp only [Mem.popObj, hobjsD, List.set_set, List.getElem?_dropLast, List.length_set,
      hobjsC, List.length_append, List.length_singleton, Nat.add_sub_cancel, hltC, if_true]
    rw [List.getElem?_set_ne (Ne.symm (Nat.ne_of_lt hltC))]
    simp [hltC, List.getElem?_append_left]
  have hrlt : rhs < m.objs.length := by
    obtain ⟨O, hO, -, -⟩ := h2
    exact objs_lt hO
  have hfinRhs : mD.popObj.objs[rhs]? = some B := by
    simp only [Mem.popObj, hobjsD, List.set_set, List.getElem?_dropLast, List.length_set,
      hobjsC, List.length_append, List.length_singleton, Nat.add_sub_cancel, hrlt, if_true]
    rw [List.getElem?_set_ne (Ne.symm hrne), List.getElem?_set_ne hne, ← hobjsC, hB]
  refine ⟨mD.popObj, ?_, ⟨_, hfinThis, rfl, rfl⟩, ⟨B, hfinRhs, hn2, ?_⟩⟩
  · simp only [assign, hne, heC, hsw, destroy, heD, bind, Except.bind, pure, Except.pure,
      ne_eq, not_false_eq_true, if_true]
  · refine Seg_frame hs2 fun a ha => ?_
    exact hframeD a (fun hmem => hdis a hmem ha)

end CopyLemmas

section FuelLemmas

variable {α : Type}

open SingleLinkedList

theorem readNode_error {m : Mem α} {p : NodePtr} {e : Fault α}
    (h : m.readNode p = .error e) : e = .undefined := by
  cases p with
  | null => simp [Mem.readNode] at h; exact h.symm
  | head l =>
    simp only [Mem.readNode] at h
    split at h <;> simp at h
    exact h.symm
  | cell a =>
    simp only [Mem.readNode] at h
    split at h <;> simp at h
    exact h.symm

theorem setNext_error {m : Mem α} {p q : NodePtr} {e : Fault α}
    (h : m.setNext p q = .error e) : e = .undefined := by
  cases p with
  | null => simp [Mem.setNext] at h; exact h.symm
  | head l =>
    simp only [Mem.setNext] at h
    split at h <;> simp at h
    exact h.symm
  | cell a =>
    simp only [Mem.setNext] at h
    split at h <;> simp at h
    exact h.symm

theorem setNext_heap_head {m m2 : Mem α} {l : Nat} {q : NodePtr}
    (h : m.setNext (.head l) q = .ok m2) : m2.heap = m.heap ∧ m2.budget = m.budget := by
  simp only [Mem.setNext] at h
  split at h <;> simp at h
  subst h
  exact ⟨rfl, rfl⟩

theorem live_set_none {h : List (Option (Node α))} {a : Nat} {n : Node α}
    (hc : h[a]? = some (some n)) :
    (h.set a none).countP Option.isSome + 1 = h.countP Option.isSome := by
  have hlt := cell_lt hc
  have hget : h[a] = some n := by
    have := List.getElem?_eq_getElem hlt
    rw [hc] at this
    exact (Option.some.inj this).symm
  have hle := List.boole_getElem_le_countP Option.isSome h a hlt
  rw [List.countP_set Option.isSome h a none hlt]
  simp only [hget, Option.isSome_some, Option.isSome_none, if_true] at hle ⊢
  simp
  omega

/-- The fuel handed to the loop of `Clear()` is never what stops it: every iteration
deletes a live heap cell, so a loop given more fuel than there are live cells ends by
itself or in undefined behaviour. -/
theorem ClearLoop_fuel (this : Nat) : ∀ (fuel : Nat) (m : Mem α),
    m.heap.countP Option.isSome < fuel → ClearLoop this fuel m ≠ .error .out_of_fuel := by
  intro fuel
  induction fuel with
  | zero => intro m h; simp at h
  | succ fuel ih =>
    intro m hlive
    simp only [ClearLoop, bind, Except.bind]
    cases hh : m.readNode (.head this) with
    | error e => simp [readNode_error hh]
    | ok hd =>
      simp only
      by_cases hnull : hd.next_node = .null
      · simp [hnull, pure, Except.pure]
      · simp only [ne_eq, hnull, not_false_eq_true, if_true]
        cases hn : m.readNode hd.next_node with
        | error e => simp [readNode_error hn]
        | ok n =>
          simp only
          cases hp : hd.next_node with
          | null => exact absurd hp hnull
          | head l => simp [Mem.deleteNode]
          | cell a =>
            cases hc : m.heap[a]? with
            | none => simp [Mem.deleteNode, hc]
            | some c =>
              cases c with
              | none => simp [Mem.deleteNode, hc]
              | some nd =>
                simp only [Mem.deleteNode, hc]
                cases hs : Mem.setNext { m with heap := m.heap.set a none } (.head this)
                    n.next_node with
                | error e => simp [setNext_error hs]
                | ok m3 =>
                  simp only
                  apply ih
                  rw [(setNext_heap_head hs).1]
                  have := live_set_none hc
                  simp only at this ⊢
                  omega

theorem Clear_fuel (this : Nat) (m : Mem α) : Clear this m ≠ .error .out_of_fuel := by
  have hle : m.heap.countP Option.isSome < m.heap.length + 1 :=
    Nat.lt_succ_of_le (List.countP_le_length _)
  have h := ClearLoop_fuel this (m.heap.length + 1) m hle
  simp only [Clear, bind, Except.bind]
  cases hc : ClearLoop this (m.heap.length + 1) m with
  | error e =>
    simp only
    intro he
    rw [hc] at h
    exact h he
  | ok m1 =>
    simp only [Mem.setSize]
    split <;> simp

/-- The fuel handed to the copy loop is never what stops it: every iteration allocates,
so a loop given more fuel than allocations are left ends by itself, in `std::bad_alloc`
or in undefined behaviour. -/
theorem CopyLoop_fuel : ∀ (fuel : Nat) (it : BasicIterator) (prev : NodePtr) (m : Mem α),
    m.budget < fuel → CopyLoop fuel it prev m ≠ .error .out_of_fuel := by
  intro fuel
  induction fuel with
  | zero => intro it prev m h; simp at h
  | succ fuel ih =>
    intro it prev m hb
    simp only [CopyLoop, bind, Except.bind]
    by_cases hend : it = end_
    · simp [hend, pure, Except.pure]
    · simp only [ne_eq, hend, not_false_eq_true, if_true]
      cases hd : it.deref m with
      | error e =>
        simp only [BasicIterator.deref, bind, Except.bind] at hd
        split at hd
        · cases hd; simp
        · cases hr : m.readNode it.node_ with
          | error e2 =>
            rw [hr] at hd
            simp at hd
            subst hd
            simp [readNode_error hr]
          | ok n =>
            rw [hr] at hd
            simp [pure, Except.pure] at hd
      | ok v =>
        simp only
        by_cases hb0 : m.budget = 0
        · simp [Mem.newNode, hb0]
        · simp only [Mem.newNode, hb0, if_false]
          cases hs : Mem.setNext
              { m with heap := m.heap ++ [some ⟨v, .null⟩], budget := m.budget - 1 } prev
              (.cell m.heap.length) with
          | error e => simp [setNext_error hs]
          | ok m2 =>
            simp only
            cases hi : it.incr m2 with
            | error e =>
              simp only [BasicIterator.incr, bind, Except.bind] at hi
              split at hi
              · cases hr : m2.readNode it.node_ with
                | error e2 =>
                  rw [hr] at hi
                  simp at hi
                  subst hi
                  simp [readNode_error hr]
                | ok n =>
                  rw [hr] at hi
                  simp [pure, Except.pure] at hi
              · simp [pure, Except.pure] at hi
            | ok it2 =>
              simp only
              apply ih
              have hbud : m2.budget = m.budget - 1 := by
                cases prev with
                | null => simp [Mem.setNext] at hs
                | head l =>
                  simp only [Mem.setNext] at hs
                  split at hs <;> simp at hs
                  subst hs
                  rfl
                | cell a =>
                  simp only [Mem.setNext] at hs
                  split at hs <;> simp at hs
                  subst hs
                  rfl
              omega

end FuelLemmas

section PushPopLemmas

variable {α : Type}

open SingleLinkedList

theorem PushFronts_IsList {this : Nat} (vs : List α) {m : Mem α} {as : List Nat}
    {xs : List α} {n : Nat} (h : IsList m this as xs n) (hb : vs.length ≤ m.budget) :
    ∃ m2 bs, PushFronts this vs m = .ok m2 ∧ bs.length = vs.length ∧
      IsList m2 this (bs ++ as) (vs.reverse ++ xs) (n + vs.length) ∧
      m2.budget = m.budget - vs.length := by
  induction vs generalizing m as xs n with
  | nil => exact ⟨m, [], rfl, rfl, by simpa using h, by simp⟩
  | cons v vs ih =>
    have hb1 : 0 < m.budget := by simp at hb; omega
    obtain ⟨m1, he, hl, hbud⟩ := PushFront_IsList v h hb1
    have hb2 : vs.length ≤ m1.budget := by simp at hb; omega
    obtain ⟨m2, bs, he2, hlen, hl2, hbud2⟩ := ih hl hb2
    refine ⟨m2, bs ++ [m.heap.length], ?_, by simp [hlen], ?_, ?_⟩
    · simp [PushFronts, he, he2, bind, Except.bind]
    · have e : n + 1 + vs.length = n + (v :: vs).length := by simp; omega
      rw [← e]
      simpa using hl2
    · simp [hbud2, hbud]; omega

theorem PopFronts_IsList {this : Nat} (bs : List Nat) : ∀ (ys : List α) (m : Mem α)
    (as : List Nat) (xs : List α) (n : Nat), bs.length = ys.length →
    IsList m this (bs ++ as) (ys ++ xs) (n + bs.length) →
    ∃ m2, PopFronts this bs.length m = .ok m2 ∧ IsList m2 this as xs n := by
  induction bs with
  | nil =>
    intro ys m as xs n hlen h
    cases ys with
    | nil => exact ⟨m, rfl, by simpa using h⟩
    | cons y ys => simp at hlen
  | cons b bs ih =>
    intro ys m as xs n hlen h
    cases ys with
    | nil => simp at hlen
    | cons y ys =>
      have h1 : IsList m this (b :: (bs ++ as)) (y :: (ys ++ xs)) (n + bs.length + 1) := by
        simpa [Nat.add_assoc] using h
      obtain ⟨m1, he, hl, -⟩ := PopFront_IsList h1 (Nat.succ_pos _)
      obtain ⟨m2, he2, hl2⟩ := ih ys m1 as xs n (by simpa using hlen) (by simpa using hl)
      exact ⟨m2, by simp [PopFronts, he, he2, bind, Except.bind], hl2⟩

end PushPopLemmas


section ClearLemmas

variable {α : Type}

open SingleLinkedList

theorem Mem_eq {m m2 : Mem α} (ho : m2.objs = m.objs) (hh : m2.heap = m.heap)
    (hb : m2.budget = m.budget) : m2 = m := by
  cases m
  cases m2
  simp_all

theorem Clear_IsList {m : Mem α} {this : Nat} {as : List Nat} {xs : List α} {n : Nat}
    (h : IsList m this as xs n) :
    ∃ m2, Clear this m = .ok m2 ∧ IsList m2 this [] [] 0 ∧ m2.budget = m.budget ∧
      (∀ a, a ∉ as → m2.heap[a]? = m.heap[a]?) ∧
      (∀ l, l ≠ this → m2.objs[l]? = m.objs[l]?) := by
  obtain ⟨L, hL, -, hs⟩ := h
  obtain ⟨m2, he, hobjs, hbud, -, hframe, -⟩ := Clear_ok hL hs
  refine ⟨m2, he, ⟨⟨⟨L.head_.value, .null⟩, 0⟩, ?_, rfl, rfl⟩, hbud, hframe, ?_⟩
  · rw [hobjs]
    exact cell_set_self _ (objs_lt hL)
  · intro l hl
    rw [hobjs, cell_set_ne _ (Ne.symm hl)]

/-- On a list that is already empty with size counter 0, `Clear()` writes nothing. -/
theorem Clear_empty {m : Mem α} {this : Nat} (h : IsList m this [] [] 0) :
    Clear this m = .ok m := by
  obtain ⟨L, hL, hn, hs⟩ := h
  obtain ⟨m2, he, hobjs, hbud, -, hframe, -⟩ := Clear_ok hL hs
  have hp : L.head_.next_node = .null := by simpa [Seg] using hs
  have hLeq : (⟨⟨L.head_.value, .null⟩, 0⟩ : SingleLinkedList α) = L := by
    cases L with
    | mk hd sz => cases hd with
      | mk v nx => simp_all
  rw [he]
  congr 1
  refine Mem_eq ?_ ?_ hbud
  · rw [hobjs, hLeq, set_same hL]
  · exact List.ext_getElem? fun a => hframe a (by simp)

end ClearLemmas


section SwapLemmas

variable {α : Type}

open SingleLinkedList

/-- The member `swap` of a list with itself writes back what it read. -/
theorem swap_self {m : Mem α} {l : Nat} {L : SingleLinkedList α} (hL : m.objs[l]? = some L) :
    swap l l m = .ok m := by
  have hlt := objs_lt hL
  have e1 : (m.objs.set l ⟨⟨L.head_.value, L.head_.next_node⟩, L.size_⟩)[l]? =
      some ⟨⟨L.head_.value, L.head_.next_node⟩, L.size_⟩ := cell_set_self _ hlt
  have e0 : m.objs.set l ⟨⟨L.head_.value, L.head_.next_node⟩, L.size_⟩ = m.objs :=
    set_same hL
  simp only [swap, Mem.readNode, Mem.setNext, Mem.obj, Mem.setSize, hL, e1, e0, List.set_set,
    bind, Except.bind]

theorem swap_IsList {m : Mem α} {a b : Nat} {as1 as2 : List Nat} {xs1 xs2 : List α}
    {n1 n2 : Nat} (h1 : IsList m a as1 xs1 n1) (h2 : IsList m b as2 xs2 n2) :
    ∃ m2, swap a b m = .ok m2 ∧ IsList m2 a as2 xs2 n2 ∧ IsList m2 b as1 xs1 n1 ∧
      m2.heap = m.heap ∧ m2.budget = m.budget ∧
      (∀ l, l ≠ a → l ≠ b → m2.objs[l]? = m.objs[l]?) := by
  obtain ⟨A, hA, hn1, hs1⟩ := h1
  obtain ⟨B, hB, hn2, hs2⟩ := h2
  by_cases hab : a = b
  · subst hab
    rw [hA] at hB
    cases hB
    obtain ⟨e1, e2⟩ := Seg_null_unique hs1 hs2
    subst e1 e2
    exact ⟨m, swap_self hA, ⟨A, hA, hn2, hs1⟩, ⟨A, hA, hn1, hs1⟩, rfl, rfl, fun _ _ _ => rfl⟩
  · refine ⟨_, swap_ok hA hB hab, ⟨⟨⟨A.head_.value, B.head_.next_node⟩, B.size_⟩, ?_, hn2, hs2⟩,
      ⟨⟨⟨B.head_.value, A.head_.next_node⟩, A.size_⟩, ?_, hn1, hs1⟩, rfl, rfl, ?_⟩
    · show ((m.objs.set a _).set b _)[a]? = _
      rw [cell_set_ne _ (Ne.symm hab), cell_set_self _ (objs_lt hA)]
    · show ((m.objs.set a _).set b _)[b]? = _
      rw [cell_set_self _ (by rw [List.length_set]; exact objs_lt hB)]
    · intro l hla hlb
      show ((m.objs.set a _).set b _)[l]? = _
      rw [cell_set_ne _ (Ne.symm hlb), cell_set_ne _ (Ne.symm hla)]

end SwapLemmas


section EqualityLemmas

variable {α : Type}

open SingleLinkedList

theorem pairwiseEq_eq_decide [DecidableEq α] (xs : List α) : ∀ ys : List α,
    pairwiseEq xs ys = decide (xs = ys) := by
  induction xs with
  | nil =>
    intro ys
    cases ys with
    | nil => simp [pairwiseEq]
    | cons y ys => simp [pairwiseEq]
  | cons x xs ih =>
    intro ys
    cases ys with
    | nil => simp [pairwiseEq]
    | cons y ys =>
      by_cases hxy : x = y
      · subst hxy
        simp [pairwiseEq, ih ys]
      · simp [pairwiseEq, hxy]

/-- The loop of `std::equal` over two null-terminated runs of the same length returns the
conjunction of the element comparisons. -/
theorem std_equal_of_Seg [BEq α] (m : Mem α) (as1 : List Nat) :
    ∀ (xs1 : List α) (as2 : List Nat) (xs2 : List α) (p1 p2 : NodePtr) (fuel : Nat),
    Seg m.heap p1 as1 xs1 .null → Seg m.heap p2 as2 xs2 .null → xs1.length = xs2.length →
    as1.length < fuel →
    std_equal fuel ⟨p1⟩ end_ ⟨p2⟩ m = .ok (pairwiseEq xs1 xs2) := by
  induction as1 with
  | nil =>
    intro xs1 as2 xs2 p1 p2 fuel h1 h2 hlen hf
    cases xs1 with
    | cons x xs => simp [Seg] at h1
    | nil =>
      have hp : p1 = .null := by simpa [Seg] using h1
      subst hp
      have hx2 : xs2 = [] := List.length_eq_zero.1 hlen.symm
      subst hx2
      cases fuel with
      | zero => simp at hf
      | succ fuel => simp [std_equal, end_, pairwiseEq, pure, Except.pure]
  | cons a as ih =>
    intro xs1 as2 xs2 p1 p2 fuel h1 h2 hlen hf
    cases xs1 with
    | nil => simp [Seg] at h1
    | cons x xs =>
      obtain ⟨hp1, nx, hc1, hr1⟩ := (Seg_cons_iff ..).1 h1
      subst hp1
      cases xs2 with
      | nil => simp at hlen
      | cons y ys =>
        cases as2 with
        | nil => simp [Seg] at h2
        | cons b bs =>
          obtain ⟨hp2, ny, hc2, hr2⟩ := (Seg_cons_iff ..).1 h2
          subst hp2
          cases fuel with
          | zero => simp at hf
          | succ fuel =>
            have hrec := ih xs bs ys nx ny fuel hr1 hr2 (by simpa using hlen) (by simpa using hf)
            cases hxy : (x == y) with
            | true =>
              simp only [std_equal, end_, BasicIterator.deref, BasicIterator.incr,
                readNode_cell hc1, readNode_cell hc2, bind, Except.bind, pure, Except.pure,
                pairwiseEq, hxy, ne_eq, BasicIterator.mk.injEq, reduceCtorEq, not_false_eq_true,
                if_true, if_false, Bool.true_and]
              simpa [end_] using hrec
            | false =>
              simp only [std_equal, end_, BasicIterator.deref, readNode_cell hc1,
                readNode_cell hc2, bind, Except.bind, pure, Except.pure, pairwiseEq, hxy, ne_eq,
                BasicIterator.mk.injEq, reduceCtorEq, not_false_eq_true, if_true, if_false,
                Bool.false_and, Bool.false_eq_true]

/-- The free `operator==` on two lists whose size counters agree: the conjunction of the
element comparisons. -/
theorem operator_eq_of_sizes [BEq α] {m : Mem α} {l1 l2 : Nat} {as1 as2 : List Nat}
    {xs1 xs2 : List α} {n : Nat} (h1 : IsList m l1 as1 xs1 n) (h2 : IsList m l2 as2 xs2 n)
    (hlen : xs1.length = xs2.length) :
    operator_eq l1 l2 m = .ok (pairwiseEq xs1 xs2) := by
  obtain ⟨A, hA, hn1, hs1⟩ := h1
  obtain ⟨B, hB, hn2, hs2⟩ := h2
  have hle := Seg_null_length_le hs1
  have hrec := std_equal_of_Seg m as1 xs1 as2 xs2 _ _ (m.heap.length + m.objs.length + 1)
    hs1 hs2 hlen (by omega)
  simp only [operator_eq, GetSize, begin, obj_eq hA, obj_eq hB, hn1, hn2, bind,
    Except.bind, pure, Except.pure, ne_eq, not_true_eq_false, if_false]
  exact hrec

theorem operator_eq_of_IsList [DecidableEq α] {m : Mem α} {l1 l2 : Nat} {as1 as2 : List Nat}
    {xs1 xs2 : List α} (h1 : IsList m l1 as1 xs1 xs1.length)
    (h2 : IsList m l2 as2 xs2 xs2.length) :
    operator_eq l1 l2 m = .ok (decide (xs1 = xs2)) := by
  by_cases hlen : xs1.length = xs2.length
  · rw [operator_eq_of_sizes h1 (hlen ▸ h2) hlen, pairwiseEq_eq_decide]
  · obtain ⟨A, hA, hn1, hs1⟩ := h1
    obtain ⟨B, hB, hn2, hs2⟩ := h2
    have hne : xs1 ≠ xs2 := fun e => hlen (by rw [e])
    simp [operator_eq, GetSize, obj_eq hA, obj_eq hB, hn1, hn2, hlen, hne, bind,
      Except.bind, pure, Except.pure]

end EqualityLemmas


section OrderLemmas

variable {α : Type}

open SingleLinkedList

theorem LexSmaller_nil_nil [LT α] : ¬ LexSmaller ([] : List α) [] := by
  rintro ⟨i, -, h | ⟨a, b, h, -, -⟩⟩
  · simp at h
  · simp at h

theorem LexSmaller_nil_cons [LT α] (y : α) (ys : List α) : LexSmaller [] (y :: ys) :=
  ⟨0, rfl, Or.inl ⟨rfl, by simp⟩⟩

theorem LexSmaller_cons_nil [LT α] (x : α) (xs : List α) : ¬ LexSmaller (x :: xs) [] := by
  rintro ⟨i, -, h | ⟨a, b, -, h, -⟩⟩
  · simp at h
  · simp at h

theorem LexSmaller_cons_cons [LT α] (x y : α) (xs ys : List α) :
    LexSmaller (x :: xs) (y :: ys) ↔ x < y ∨ (x = y ∧ LexSmaller xs ys) := by
  constructor
  · rintro ⟨i, ht, h⟩
    cases i with
    | zero =>
      rcases h with h | ⟨a, b, ha, hb, hlt⟩
      · simp at h
      · simp at ha hb
        subst ha hb
        exact Or.inl hlt
    | succ j =>
      simp only [List.take_succ_cons, List.cons.injEq] at ht
      refine Or.inr ⟨ht.1, j, ht.2, ?_⟩
      rcases h with h | ⟨a, b, ha, hb, hlt⟩
      · exact Or.inl ⟨by simpa using h.1, by simpa using h.2⟩
      · exact Or.inr ⟨a, b, by simpa using ha, by simpa using hb, hlt⟩
  · rintro (hlt | ⟨rfl, i, ht, h⟩)
    · exact ⟨0, rfl, Or.inr ⟨x, y, by simp, by simp, hlt⟩⟩
    · refine ⟨i + 1, by simp [ht], ?_⟩
      rcases h with h | ⟨a, b, ha, hb, hlt⟩
      · exact Or.inl ⟨by simpa using h.1, by simpa using h.2⟩
      · exact Or.inr ⟨a, b, by simpa using ha, by simpa using hb, hlt⟩

/-- Over a linear order the element-by-element comparison decides the specification's
"lexicographically smaller". -/
theorem lexLess_iff [LinearOrder α] (xs : List α) : ∀ ys : List α,
    lexLess xs ys = true ↔ LexSmaller xs ys := by
  induction xs with
  | nil =>
    intro ys
    cases ys with
    | nil => simp [lexLess, LexSmaller_nil_nil]
    | cons y ys => simp [lexLess, LexSmaller_nil_cons]
  | cons x xs ih =>
    intro ys
    cases ys with
    | nil => simp [lexLess, LexSmaller_cons_nil]
    | cons y ys =>
      rw [LexSmaller_cons_cons]
      by_cases h1 : x < y
      · simp [lexLess, h1]
      · by_cases h2 : y < x
        · have hne : x ≠ y := fun e => h1 (e ▸ h2)
          simp [lexLess, h1, h2, hne]
        · have he : x = y := le_antisymm (not_lt.1 h2) (not_lt.1 h1)
          simp [lexLess, h1, h2, he, ih ys]

theorem std_lexicographical_compare_of_Seg [LT α] [DecidableRel (fun a b : α => a < b)]
    (m : Mem α) (as1 : List Nat) :
    ∀ (xs1 : List α) (as2 : List Nat) (xs2 : List α) (p1 p2 : NodePtr) (fuel : Nat),
    Seg m.heap p1 as1 xs1 .null → Seg m.heap p2 as2 xs2 .null → as1.length < fuel →
    std_lexicographical_compare fuel ⟨p1⟩ end_ ⟨p2⟩ end_ m = .ok (lexLess xs1 xs2) := by
  induction as1 with
  | nil =>
    intro xs1 as2 xs2 p1 p2 fuel h1 h2 hf
    cases xs1 with
    | cons x xs => simp [Seg] at h1
    | nil =>
      have hp : p1 = .null := by simpa [Seg] using h1
      subst hp
      cases fuel with
      | zero => simp at hf
      | succ fuel =>
        cases as2 with
        | nil => cases xs2 with
          | nil =>
            have hp2 : p2 = .null := by simpa [Seg] using h2
            subst hp2
            simp [std_lexicographical_compare, end_, lexLess, pure, Except.pure]
          | cons y ys => simp [Seg] at h2
        | cons b bs => cases xs2 with
          | nil => simp [Seg] at h2
          | cons y ys =>
            obtain ⟨hp2, -, -, -⟩ := (Seg_cons_iff ..).1 h2
            subst hp2
            simp [std_lexicographical_compare, end_, lexLess, pure, Except.pure]
  | cons a as ih =>
    intro xs1 as2 xs2 p1 p2 fuel h1 h2 hf
    cases xs1 with
    | nil => simp [Seg] at h1
    | cons x xs =>
      obtain ⟨hp1, nx, hc1, hr1⟩ := (Seg_cons_iff ..).1 h1
      subst hp1
      cases fuel with
      | zero => simp at hf
      | succ fuel =>
        cases as2 with
        | nil => cases xs2 with
          | nil =>
            have hp2 : p2 = .null := by simpa [Seg] using h2
            subst hp2
            simp [std_lexicographical_compare, end_, lexLess, pure, Except.pure]
          | cons y ys => simp [Seg] at h2
        | cons b bs => cases xs2 with
          | nil => simp [Seg] at h2
          | cons y ys =>
            obtain ⟨hp2, ny, hc2, hr2⟩ := (Seg_cons_iff ..).1 h2
            subst hp2
            have hrec := ih xs bs ys nx ny fuel hr1 hr2 (by simpa using hf)
            by_cases hxy : x < y
            · simp [std_lexicographical_compare, end_, lexLess, BasicIterator.deref,
                readNode_cell hc1, readNode_cell hc2, bind, Except.bind, pure, Except.pure, hxy]
            · by_cases hyx : y < x
              · simp [std_lexicographical_compare, end_, lexLess, BasicIterator.deref,
                  readNode_cell hc1, readNode_cell hc2, bind, Except.bind, pure, Except.pure,
                  hxy, hyx]
              · simp [std_lexicographical_compare, end_, lexLess, BasicIterator.deref,
                  BasicIterator.incr, readNode_cell hc1, readNode_cell hc2, bind, Except.bind,
                  pure, Except.pure, hxy, hyx]
                simpa [end_] using hrec

theorem operator_lt_of_IsList [LT α] [DecidableRel (fun a b : α => a < b)] {m : Mem α}
    {l1 l2 : Nat} {as1 as2 : List Nat} {xs1 xs2 : List α} {n1 n2 : Nat}
    (h1 : IsList m l1 as1 xs1 n1) (h2 : IsList m l2 as2 xs2 n2) :
    operator_lt l1 l2 m = .ok (lexLess xs1 xs2) := by
  obtain ⟨A, hA, -, hs1⟩ := h1
  obtain ⟨B, hB, -, hs2⟩ := h2
  have hle := Seg_null_length_le hs1
  have hrec := std_lexicographical_compare_of_Seg m as1 xs1 as2 xs2 _ _
    (m.heap.length + m.objs.length + 1) hs1 hs2 (by omega)
  simp only [operator_lt, begin, obj_eq hA, obj_eq hB, bind, Except.bind, pure, Except.pure]
  exact hrec

end OrderLemmas


section CompareLemmas

variable {α : Type}

open SingleLinkedList

/-- Over a linear order, "not greater" is "smaller or equal" for the element-by-element
comparison. -/
theorem lexLess_not_flip [LinearOrder α] (xs : List α) : ∀ ys : List α,
    (!lexLess ys xs) = (lexLess xs ys || decide (xs = ys)) := by
  induction xs with
  | nil =>
    intro ys
    cases ys with
    | nil => simp [lexLess]
    | cons y ys => simp [lexLess]
  | cons x xs ih =>
    intro ys
    cases ys with
    | nil => simp [lexLess]
    | cons y ys =>
      by_cases h1 : x < y
      · have h2 : ¬ y < x := not_lt.2 (le_of_lt h1)
        simp [lexLess, h1, h2]
      · by_cases h2 : y < x
        · have hne : x ≠ y := fun e => h1 (e ▸ h2)
          simp [lexLess, h1, h2, hne]
        · have he : x = y := le_antisymm (not_lt.1 h2) (not_lt.1 h1)
          subst he
          simp [lexLess, ih ys]

end CompareLemmas


section AllocationFailureLemmas

variable {α : Type}

open SingleLinkedList

/-- The copy loop, entered with `prev_ptr` at a heap node and with fewer allocations left
than source nodes remain: it ends in `std::bad_alloc`, having written no list object and
no heap cell that existed before other than `prev_ptr`'s. -/
theorem CopyLoop_cell_fail (as : List Nat) : ∀ (xs : List α) (fuel : Nat) (m : Mem α)
    (it : BasicIterator) (c : Nat) (y : α),
    Seg m.heap it.node_ as xs .null → c ∉ as → m.heap[c]? = some (some ⟨y, .null⟩) →
    m.budget < as.length → m.budget < fuel →
    ∃ mF, CopyLoop fuel it (.cell c) m = .error (.bad_alloc mF) ∧ mF.objs = m.objs ∧
      (∀ a, a < m.heap.length → a ≠ c → mF.heap[a]? = m.heap[a]?) ∧ mF.budget = 0 := by
  induction as with
  | nil =>
    intro xs fuel m it c y _ _ _ hb _
    simp at hb
  | cons a as ih =>
    intro xs fuel m it c y hs hnot hc hb hf
    cases xs with
    | nil => simp [Seg] at hs
    | cons x xs =>
      obtain ⟨hp, nx, hca, hr⟩ := (Seg_cons_iff ..).1 hs
      have hne : it ≠ end_ := by
        intro e
        rw [e] at hp
        cases hp
      cases fuel with
      | zero => simp at hf
      | succ fuel =>
        by_cases hb0 : m.budget = 0
        · refine ⟨m, ?_, rfl, fun _ _ _ => rfl, hb0⟩
          simp only [CopyLoop, hne, BasicIterator.deref, hp, Mem.readNode, Mem.newNode, hca, hb0,
            bind, Except.bind, pure, Except.pure, if_true, if_false, ne_eq, not_false_eq_true,
            reduceCtorEq]
        · have hac : a ≠ c := fun e => hnot (e ▸ List.mem_cons_self _ _)
          have hcas : c ∉ as := fun hmem => hnot (List.mem_cons_of_mem _ hmem)
          have hlc := cell_lt hc
          have hla := cell_lt hca
          have hltas := Seg_lt hr
          have hc1 : (m.heap ++ [some (Node.mk x .null)])[c]? = some (some ⟨y, .null⟩) := by
            rw [cell_append_old _ hlc, hc]
          have ha2 : ((m.heap ++ [some (Node.mk x .null)]).set c
              (some (Node.mk y (.cell m.heap.length))))[a]? = some (some ⟨x, nx⟩) := by
            rw [cell_set_ne _ (Ne.symm hac), cell_append_old _ hla, hca]
          have hn2 : ((m.heap ++ [some (Node.mk x .null)]).set c
              (some (Node.mk y (.cell m.heap.length))))[m.heap.length]? =
              some (some ⟨x, .null⟩) := by
            rw [cell_set_ne _ (Nat.ne_of_lt hlc), cell_append_new]
          have hr2 : Seg ((m.heap ++ [some (Node.mk x .null)]).set c
              (some (Node.mk y (.cell m.heap.length)))) nx as xs .null :=
            Seg_set_of_not_mem _ (Seg_append_cell _ hr) hcas
          have hfresh : m.heap.length ∉ as := fun hmem => Nat.lt_irrefl _ (hltas _ hmem)
          obtain ⟨mF, he, hobjs, hframe, hbud⟩ :=
            ih xs fuel
              { objs := m.objs
                heap := (m.heap ++ [some (Node.mk x .null)]).set c
                  (some (Node.mk y (.cell m.heap.length)))
                budget := m.budget - 1 }
              ⟨nx⟩ m.heap.length x hr2 hfresh hn2 (by simp at hb ⊢; omega)
              (by simp only; omega)
          simp only [List.length_set, List.length_append, List.length_singleton] at hframe
          refine ⟨mF, ?_, hobjs, ?_, hbud⟩
          · simp only [CopyLoop, hne, BasicIterator.deref, BasicIterator.incr, hp, Mem.readNode,
              Mem.newNode, Mem.setNext, hca, hc1, ha2, hb0, bind, Except.bind, pure,
              Except.pure, if_true, if_false, ne_eq, not_false_eq_true, reduceCtorEq]
            exact he
          · intro b hb1 hbc
            rw [hframe b (by omega) (Nat.ne_of_lt hb1), cell_set_ne _ (Ne.symm hbc),
              cell_append_old _ hb1]

/-- The throwing part of the copy constructor with fewer allocations left than the source
has nodes: it ends in `std::bad_alloc`; the only list objects written are `temp` (its
size) and `this` (its sentinel link), and no heap cell that existed before is written. -/
theorem ctor_copy_build_fail {M : Mem α} {this temp other : Nat} {as : List Nat}
    {xs : List α} {n : Nat} {T U : SingleLinkedList α} (h : IsList M other as xs n)
    (hT : M.objs[this]? = some T) (hU : M.objs[temp]? = some U) (hne1 : this ≠ temp)
    (hne2 : temp ≠ other) (hb : M.budget < xs.length) :
    ∃ mF q, ctor_copy_build this temp other M = .error (.bad_alloc mF) ∧
      mF.objs = (M.objs.set temp ⟨U.head_, n⟩).set this ⟨⟨T.head_.value, q⟩, T.size_⟩ ∧
      (∀ a, a < M.heap.length → mF.heap[a]? = M.heap[a]?) := by
  obtain ⟨O, hO, hn, hs⟩ := h
  have hO1 : (M.objs.set temp ⟨U.head_, O.size_⟩)[other]? = some O := by
    rw [List.getElem?_set_ne hne2, hO]
  have hT1 : (M.objs.set temp ⟨U.head_, O.size_⟩)[this]? = some T := by
    rw [List.getElem?_set_ne (Ne.symm hne1), hT]
  subst hn
  cases as with
  | nil =>
    cases xs with
    | cons x xs => simp [Seg] at hs
    | nil => simp at hb
  | cons a as =>
    cases xs with
    | nil => simp [Seg] at hs
    | cons x xs =>
      obtain ⟨hp, nx, hc, hr⟩ := (Seg_cons_iff ..).1 hs
      have hne : (⟨.cell a⟩ : BasicIterator) ≠ end_ := by simp [end_]
      have hla := cell_lt hc
      by_cases hb0 : M.budget = 0
      · refine ⟨{ M with objs := M.objs.set temp ⟨U.head_, O.size_⟩ }, T.head_.next_node, ?_, ?_,
          fun _ _ => rfl⟩
        · simp only [ctor_copy_build, Mem.obj, Mem.setSize, begin, hO, hU, hO1, hp, hne, CopyLoop,
            BasicIterator.deref, Mem.readNode, Mem.newNode, hc, hb0, bind, Except.bind, pure,
            Except.pure, ne_eq, not_false_eq_true, if_true, if_false, reduceCtorEq]
        · have hTeq : (⟨⟨T.head_.value, T.head_.next_node⟩, T.size_⟩ : SingleLinkedList α) = T :=
            rfl
          simp only [hTeq, set_same hT1]
      · have hc1 : (M.heap ++ [some (Node.mk x .null)])[a]? = some (some ⟨x, nx⟩) := by
          rw [cell_append_old _ hla, hc]
        have hfresh : M.heap.length ∉ as := fun hmem => Nat.lt_irrefl _ (Seg_lt hr _ hmem)
        have hlen := Seg_length hr
        obtain ⟨mF, he, hobjs, hframe, -⟩ :=
          CopyLoop_cell_fail as xs M.budget
            { objs := (M.objs.set temp ⟨U.head_, O.size_⟩).set this
                ⟨⟨T.head_.value, .cell M.heap.length⟩, T.size_⟩
              heap := M.heap ++ [some (Node.mk x .null)]
              budget := M.budget - 1 }
            ⟨nx⟩ M.heap.length x (Seg_append_cell _ hr) hfresh (cell_append_new _ _)
            (by simp at hb ⊢; omega) (by simp only; omega)
        simp only [List.length_append, List.length_singleton] at hframe
        refine ⟨mF, .cell M.heap.length, ?_, hobjs, ?_⟩
        · simp only [ctor_copy_build, Mem.obj, Mem.setSize, begin, hO, hU, hO1, hp, hne, CopyLoop,
            BasicIterator.deref, BasicIterator.incr, Mem.readNode, Mem.newNode, Mem.setNext, hc,
            hc1, hT1, hb0, bind, Except.bind, pure, Except.pure, ne_eq, not_false_eq_true,
            if_true, if_false, reduceCtorEq]
          exact he
        · intro b hb1
          rw [hframe b (by omega) (Nat.ne_of_lt hb1), cell_append_old _ hb1]

/-- The copy constructor with fewer allocations left than the source has nodes: it ends
in `std::bad_alloc`, and after unwinding the list objects are those from before the call
and no heap cell that existed before has been written. -/
theorem ctor_copy_fail [Inhabited α] {m : Mem α} {other : Nat} {as : List Nat}
    {xs : List α} {n : Nat} (h : IsList m other as xs n) (hb : m.budget < xs.length) :
    ∃ mF, ctor_copy other m = .error (.bad_alloc mF) ∧ mF.objs = m.objs ∧
      (∀ a, a < m.heap.length → mF.heap[a]? = m.heap[a]?) := by
  obtain ⟨O, hO, hn, hs⟩ := h
  have hlo : other < m.objs.length := objs_lt hO
  have hA : IsList
      { m with objs := m.objs ++ [SingleLinkedList.mk (Node.mk default .null) 0] ++
          [SingleLinkedList.mk (Node.mk default .null) 0] } other as xs n :=
    ⟨O, by rw [two_get_old _ _ _ hlo, hO], hn, hs⟩
  obtain ⟨mB, q, heB, hobjsB, hframeB⟩ :=
    ctor_copy_build_fail hA (two_get0 _ _ _) (two_get1 _ _ _) (by omega) (by omega) hb
  have hobjsB2 : mB.objs = m.objs ++ [SingleLinkedList.mk (Node.mk default q) 0] ++
      [SingleLinkedList.mk (Node.mk default .null) n] := by
    rw [hobjsB]
    simp only [two_set1, two_set0]
  obtain ⟨mD, heD, hobjsD, -, -, hframeD, -⟩ :=
    @Clear_ok α mB (m.objs.length + 1) [] [] (SingleLinkedList.mk (Node.mk default .null) n)
      (hobjsB2 ▸ two_get1 m.objs (SingleLinkedList.mk (Node.mk default q) 0)
        (SingleLinkedList.mk (Node.mk default .null) n)) rfl
  rw [hobjsB2] at hobjsD
  simp only [two_set1] at hobjsD
  refine ⟨mD.popObj.popObj, ?_, ?_, ?_⟩
  · simp only [ctor_copy, Mem.newObj, List.length_append, List.length_singleton, heB, destroy,
      heD, bind, Except.bind, pure, Except.pure]
  · simp only [Mem.popObj, hobjsD, List.dropLast_concat]
  · intro a ha
    show mD.heap[a]? = _
    rw [hframeD a (by simp), hframeB a ha]

/-- Copy assignment between different lists with fewer allocations left than the source
has nodes: it ends in `std::bad_alloc`, and every list that was well-formed before the
call, the target included, still has the same chain, values and size. -/
theorem assign_fail [Inhabited α] {m : Mem α} {this rhs : Nat} {as2 : List Nat}
    {xs2 : List α} {n2 : Nat} (h2 : IsList m rhs as2 xs2 n2) (hne : this ≠ rhs)
    (hb : m.budget < xs2.length) :
    ∃ mF, assign this rhs m = .error (.bad_alloc mF) ∧
      ∀ (l : Nat) (as : List Nat) (xs : List α) (n : Nat),
        IsList m l as xs n → IsList mF l as xs n := by
  obtain ⟨mF, he, hobjs, hframe⟩ := ctor_copy_fail h2 hb
  refine ⟨mF, ?_, ?_⟩
  · simp only [assign, hne, he, bind, Except.bind, ne_eq, not_false_eq_true, if_true]
  · intro l as xs n h
    obtain ⟨L, hL, hn, hs⟩ := h
    exact ⟨L, by rw [hobjs, hL], hn, Seg_frame hs fun a ha => hframe a (Seg_lt hs a ha)⟩

end AllocationFailureLemmas


section EraseLemmas

variable {α : Type}

open SingleLinkedList

/-- What a position of a list refers to: a readable node whose link starts the rest
of the chain. -/
theorem readNode_position {m : Mem α} {this i : Nat} {as : List Nat} {xs : List α} {n : Nat}
    {pos : BasicIterator} (h : IsList m this as xs n)
    (hpos : (positions this as)[i]? = some pos) :
    pos.node_ ≠ .null ∧ ∃ nd, m.readNode pos.node_ = .ok nd ∧
      Seg m.heap nd.next_node (as.drop i) (xs.drop i) .null := by
  obtain ⟨L, hL, -, hs⟩ := h
  cases i with
  | zero =>
    have hp := positions_zero hpos
    subst hp
    exact ⟨by simp, L.head_, readNode_head hL, by simpa using hs⟩
  | succ k =>
    obtain ⟨a, hak, hp⟩ := positions_succ hpos
    subst hp
    obtain ⟨l1, l2, y1, x, y2, nx, e1, e2, hl1, hl2, -, hc, s2⟩ := Seg_at hs hak
    subst e1 e2 hl1
    refine ⟨by simp, ⟨x, nx⟩, readNode_cell hc, ?_⟩
    rw [drop_append_succ, ← hl2, drop_append_succ]
    exact s2

/-- With a positive size counter, `EraseAfter` at a position whose link is null reads
through the null pointer. -/
theorem EraseAfter_null_link {m : Mem α} {this : Nat} {pos : BasicIterator}
    {L : SingleLinkedList α} {nd : Node α} (hL : m.objs[this]? = some L) (hn : 0 < L.size_)
    (hp : pos.node_ ≠ .null) (hr : m.readNode pos.node_ = .ok nd)
    (hnull : nd.next_node = .null) : EraseAfter this pos m = .error .undefined := by
  have hrn : m.readNode .null = .error .undefined := rfl
  simp only [EraseAfter, hp, obj_eq hL, hn, hr, hnull, hrn, bind, Except.bind, pure,
    Except.pure, if_true, if_false]

theorem mTwoListsTight_isList0 : IsList mTwoListsTight 0 [0] [7] 1 :=
  ⟨_, rfl, rfl, rfl, _, rfl, rfl⟩

theorem mTwoListsTight_isList1 : IsList mTwoListsTight 1 [2, 1] [1, 2] 2 :=
  ⟨_, rfl, rfl, rfl, _, rfl, rfl, _, rfl, rfl⟩

theorem mDefault_isList : IsList mDefault 0 [] [] 0 :=
  ⟨_, rfl, rfl, rfl⟩

end EraseLemmas


section Claims

variable {α : Type}

open SingleLinkedList

theorem mOne_built : ctor_init_list [1] mEmpty = .ok (0, mOne) := rfl

theorem m123_built : ctor_init_list [1, 2, 3] mEmpty = .ok (0, m123) := rfl

theorem mTwoLists_built :
    (ctor_init_list [7] mEmpty).bind (fun r => ctor_init_list [1, 2] r.2) =
      .ok (1, mTwoLists) := rfl

theorem mOne_isList : IsList mOne 0 [0] [1] 1 :=
  ⟨_, rfl, rfl, rfl, _, rfl, rfl⟩

theorem m123_isList : IsList m123 0 [2, 1, 0] [1, 2, 3] 3 :=
  ⟨_, rfl, rfl, rfl, _, rfl, rfl, _, rfl, rfl, _, rfl, rfl⟩

theorem mTwoLists_isList0 : IsList mTwoLists 0 [0] [7] 1 :=
  ⟨_, rfl, rfl, rfl, _, rfl, rfl⟩

theorem mTwoLists_isList1 : IsList mTwoLists 1 [2, 1] [1, 2] 2 :=
  ⟨_, rfl, rfl, rfl, _, rfl, rfl, _, rfl, rfl⟩

/-- Claim C1, evaluated on the code: copy-constructing from the list `[1]` (a list whose
size counter equals its chain length) gives a list that reports size 1 but whose
iteration from `begin()` to `end()` yields nothing, not `[1]`. -/
theorem ctor_copy_of_singleton_iterates_nothing :
    elements 0 mOne = .ok [1] ∧ GetSize 0 mOne = .ok 1 ∧
    ∃ m2, ctor_copy 0 mOne = .ok (1, m2) ∧ GetSize 1 m2 = .ok 1 ∧ elements 1 m2 = .ok [] :=
  ⟨rfl, rfl, _, rfl, rfl, rfl⟩

/-- Claim C2, evaluated on the code: the source list `[1]` has its size counter equal to
its chain length, but the list the copy constructor produces from it has an empty chain
(no node reachable from its sentinel) together with size counter 1. -/
theorem ctor_copy_breaks_size_invariant :
    IsList mOne 0 [0] [1] 1 ∧
    ∃ m2, ctor_copy 0 mOne = .ok (1, m2) ∧ IsList m2 1 [] [] 1 :=
  ⟨mOne_isList, _, rfl, _, rfl, rfl, rfl⟩

/-- Claim C3: for every finite sequence `S` (the empty one included), the list built by
the initializer-list constructor iterates from `begin()` to `end()` as exactly `S`, in
order, and `GetSize()` returns `|S|`; the allocator is assumed to grant the `|S|` nodes. -/
theorem ctor_init_list_spec [Inhabited α] (S : List α) (m : Mem α)
    (hb : S.length ≤ m.budget) :
    ∃ this m2, ctor_init_list S m = .ok (this, m2) ∧ elements this m2 = .ok S ∧
      GetSize this m2 = .ok S.length := by
  have h0 : IsList
      { m with objs := ((m.objs ++ [SingleLinkedList.mk (Node.mk default .null) 0]).set
          m.objs.length (SingleLinkedList.mk (Node.mk default .null) S.length)) }
      m.objs.length [] [] S.length :=
    ⟨⟨⟨default, .null⟩, S.length⟩, by simp, rfl, rfl⟩
  obtain ⟨m2, bs, he, hl, -⟩ := PushValues_IsList S.reverse h0 (by simpa using hb)
  refine ⟨m.objs.length, m2, ?_, ?_, GetSize_of_IsList hl⟩
  · simp only [ctor_init_list, Mem.newObj, Mem.setSize, List.getElem?_concat_length, bind,
      Except.bind, he]
  · simpa using elements_of_IsList hl

theorem ctor_init_list_spec_witness :
    [1, 2, 3].length ≤ mEmpty.budget ∧
    ∃ this m2, ctor_init_list [1, 2, 3] mEmpty = .ok (this, m2) ∧
      elements this m2 = .ok [1, 2, 3] ∧ GetSize this m2 = .ok 3 :=
  ⟨by decide, ctor_init_list_spec [1, 2, 3] mEmpty (by decide)⟩

/-- Claim C4, evaluated on the code: with `a = [7]` and `b = [1, 2]` two distinct lists
whose size counters equal their chain lengths, after `a = b` the list `a` reports size 2
but iterating it yields nothing, not `[1, 2]`. -/
theorem assign_of_distinct_lists_iterates_nothing :
    elements 0 mTwoLists = .ok [7] ∧ GetSize 0 mTwoLists = .ok 1 ∧
    elements 1 mTwoLists = .ok [1, 2] ∧ GetSize 1 mTwoLists = .ok 2 ∧
    ∃ m2, assign 0 1 mTwoLists = .ok m2 ∧ GetSize 0 m2 = .ok 2 ∧ elements 0 m2 = .ok [] :=
  ⟨rfl, rfl, rfl, rfl, _, rfl, rfl, rfl⟩

/-- Claim C5: self-assignment `L = L` returns normally and leaves the whole memory, hence
the size and the element sequence of `L`, unchanged. -/
theorem assign_self [Inhabited α] (m : Mem α) (this : Nat) :
    ∃ m2, assign this this m = .ok m2 ∧ m2 = m ∧ GetSize this m2 = GetSize this m ∧
      elements this m2 = elements this m :=
  ⟨m, by simp [assign, pure, Except.pure], rfl, rfl, rfl⟩

/-- Claim C6: on a list with element sequence `xs` and size counter `n`, `PushFront(v)`
(the allocator granting one node) leaves a list that iterates as `v` followed by `xs`
and whose `GetSize()` is `n + 1`. -/
theorem PushFront_spec (m : Mem α) (this : Nat) (as : List Nat) (xs : List α) (n : Nat)
    (v : α) (h : IsList m this as xs n) (hb : 0 < m.budget) :
    ∃ m2, PushFront this v m = .ok m2 ∧ elements this m2 = .ok (v :: xs) ∧
      GetSize this m2 = .ok (n + 1) := by
  obtain ⟨m2, he, hl, -⟩ := PushFront_IsList v h hb
  exact ⟨m2, he, elements_of_IsList hl, GetSize_of_IsList hl⟩

theorem PushFront_spec_witness :
    IsList m123 0 [2, 1, 0] [1, 2, 3] 3 ∧ 0 < m123.budget ∧
    ∃ m2, PushFront 0 0 m123 = .ok m2 ∧ elements 0 m2 = .ok [0, 1, 2, 3] ∧
      GetSize 0 m2 = .ok 4 :=
  ⟨m123_isList, by decide, PushFront_spec m123 0 [2, 1, 0] [1, 2, 3] 3 0 m123_isList (by decide)⟩

/-- Claim C7: on a list whose size counter equals its chain length, `PopFront()` drops
exactly the first element (sequence `xs.tail`, size `|xs| - 1`); on the empty list it
changes nothing at all. -/
theorem PopFront_spec (m : Mem α) (this : Nat) (as : List Nat) (xs : List α)
    (h : IsList m this as xs xs.length) :
    ∃ m2, PopFront this m = .ok m2 ∧ elements this m2 = .ok xs.tail ∧
      GetSize this m2 = .ok (xs.length - 1) ∧ (xs = [] → m2 = m) := by
  cases xs with
  | nil =>
    obtain ⟨L, hL, hn, hs⟩ := h
    exact ⟨m, PopFront_noop hL hn, elements_of_IsList ⟨L, hL, hn, hs⟩,
      GetSize_of_IsList ⟨L, hL, hn, hs⟩, fun _ => rfl⟩
  | cons x xs =>
    cases as with
    | nil =>
      obtain ⟨L, -, -, hs⟩ := h
      simp [Seg] at hs
    | cons a as =>
      obtain ⟨m2, he, hl, -⟩ := PopFront_IsList h (by simp)
      exact ⟨m2, he, elements_of_IsList hl, GetSize_of_IsList hl, by simp⟩

theorem PopFront_spec_witness :
    IsList m123 0 [2, 1, 0] [1, 2, 3] 3 ∧
    ∃ m2, PopFront 0 m123 = .ok m2 ∧ elements 0 m2 = .ok [2, 3] ∧ GetSize 0 m2 = .ok 2 ∧
      (([1, 2, 3] : List Int) = [] → m2 = m123) :=
  ⟨m123_isList, PopFront_spec m123 0 [2, 1, 0] [1, 2, 3] m123_isList⟩

/-- Claim C8: on a list with element sequence `xs` and size counter `n`, for `pos` the
`i`-th position of the list (position 0 is the sentinel `before_begin()`, position `k + 1`
the `k`-th node), `InsertAfter(pos, v)` (the allocator granting one node) leaves the
sequence `xs` with `v` put in at index `i` and everything else in its old order,
`GetSize()` is `n + 1`, and the returned iterator dereferences to `v` and is what `++pos`
gives. -/
theorem InsertAfter_spec (m : Mem α) (this : Nat) (as : List Nat) (xs : List α) (n i : Nat)
    (pos : BasicIterator) (v : α) (h : IsList m this as xs n) (hb : 0 < m.budget)
    (hpos : (positions this as)[i]? = some pos) :
    ∃ it m2, InsertAfter this pos v m = .ok (it, m2) ∧
      elements this m2 = .ok (xs.take i ++ v :: xs.drop i) ∧
      GetSize this m2 = .ok (n + 1) ∧
      it.deref m2 = .ok v ∧ pos.incr m2 = .ok it := by
  obtain ⟨m2, he, hl, hinc, ⟨q, hq⟩, -⟩ := InsertAfter_IsList v h hb hpos
  refine ⟨_, m2, he, elements_of_IsList hl, GetSize_of_IsList hl, ?_, hinc⟩
  simp [BasicIterator.deref, readNode_cell hq, bind, Except.bind, pure, Except.pure]

theorem InsertAfter_spec_witness :
    IsList m123 0 [2, 1, 0] [1, 2, 3] 3 ∧ 0 < m123.budget ∧
    (positions 0 [2, 1, 0])[2]? = some ⟨.cell 1⟩ ∧
    ∃ it m2, InsertAfter 0 ⟨.cell 1⟩ 9 m123 = .ok (it, m2) ∧
      elements 0 m2 = .ok [1, 2, 9, 3] ∧ GetSize 0 m2 = .ok 4 ∧
      it.deref m2 = .ok 9 ∧ BasicIterator.incr ⟨.cell 1⟩ m2 = .ok it :=
  ⟨m123_isList, by decide, rfl,
    InsertAfter_spec m123 0 [2, 1, 0] [1, 2, 3] 3 2 ⟨.cell 1⟩ 9 m123_isList (by decide) rfl⟩

/-- Claim C9: on a list whose size counter equals its chain length, for `pos` the `i`-th
position (0 the sentinel, `k + 1` the `k`-th node) with a node after it, `EraseAfter(pos)`
removes exactly the element at index `i` (the one right after `pos`) and keeps the others
in order, `GetSize()` drops by 1, and the returned iterator is what `++pos` now gives: it
refers to the former element `i + 1`, or is `end()` when there is none.  With `pos` just
before the last element the result is the list without its last element. -/
theorem EraseAfter_spec (m : Mem α) (this : Nat) (as : List Nat) (xs : List α) (i : Nat)
    (pos : BasicIterator) (h : IsList m this as xs xs.length)
    (hpos : (positions this as)[i]? = some pos) (hi : i < xs.length) :
    ∃ it m2, EraseAfter this pos m = .ok (it, m2) ∧
      elements this m2 = .ok (xs.eraseIdx i) ∧
      GetSize this m2 = .ok (xs.length - 1) ∧
      pos.incr m2 = .ok it ∧
      (match xs[i + 1]? with
        | some y => it.deref m2 = .ok y
        | none => it = end_) ∧
      (i + 1 = xs.length → elements this m2 = .ok xs.dropLast) := by
  have hlen : as.length = xs.length := by
    obtain ⟨L, -, -, hs⟩ := h
    exact Seg_length hs
  obtain ⟨it, m2, he, hl, hinc, hseg, -⟩ :=
    EraseAfter_IsList h (Nat.lt_of_le_of_lt (Nat.zero_le _) hi) hpos (hlen ▸ hi)
  refine ⟨it, m2, he, elements_of_IsList hl, GetSize_of_IsList hl, hinc, ?_, fun hlast => ?_⟩
  · have hd := deref_of_Seg hseg
    simpa using hd
  · rw [← eraseIdx_last xs i hlast]
    exact elements_of_IsList hl

theorem EraseAfter_spec_witness :
    IsList m123 0 [2, 1, 0] [1, 2, 3] 3 ∧ (positions 0 [2, 1, 0])[2]? = some ⟨.cell 1⟩ ∧
    2 < ([1, 2, 3] : List Int).length ∧
    ∃ it m2, EraseAfter 0 ⟨.cell 1⟩ m123 = .ok (it, m2) ∧
      elements 0 m2 = .ok [1, 2] ∧ GetSize 0 m2 = .ok 2 ∧
      BasicIterator.incr ⟨.cell 1⟩ m2 = .ok it ∧
      it = end_ ∧
      (2 + 1 = ([1, 2, 3] : List Int).length → elements 0 m2 = .ok [1, 2]) :=
  ⟨m123_isList, rfl, by decide,
    EraseAfter_spec m123 0 [2, 1, 0] [1, 2, 3] 2 ⟨.cell 1⟩ m123_isList rfl (by decide)⟩

/-- Claim C10: `InsertAfter(before_begin(), v)` and `PushFront(v)` end in the same way on
every memory: when one returns so does the other, with exactly the same memory (so the
same element sequence and size), and the iterator returned by `InsertAfter` is `begin()`
of the result; when one fails the other fails alike.  On the list `[1, 2, 3]` with value
0 both give `[0, 1, 2, 3]`. -/
theorem InsertAfter_before_begin_eq_PushFront (m : Mem α) (this : Nat) (v : α) :
    (match InsertAfter this (before_begin this) v m with
      | .ok (it, m2) => PushFront this v m = .ok m2 ∧ begin this m2 = .ok it
      | .error e => PushFront this v m = .error e) ∧
    ∃ it m2, InsertAfter 0 (before_begin 0) 0 m123 = .ok (it, m2) ∧
      PushFront 0 0 m123 = .ok m2 ∧ elements 0 m2 = .ok [0, 1, 2, 3] ∧
      GetSize 0 m2 = .ok 4 ∧ begin 0 m2 = .ok it := by
  refine ⟨?_, _, _, rfl, rfl, rfl, rfl, rfl⟩
  cases hL : m.objs[this]? with
  | none =>
    simp [InsertAfter, before_begin, PushFront, PushValue, Mem.readNode, hL, bind, Except.bind,
      pure, Except.pure]
  | some L =>
    by_cases hb : m.budget = 0
    · simp [InsertAfter, before_begin, PushFront, PushValue, Mem.readNode, Mem.newNode, hL, hb,
        bind, Except.bind, pure, Except.pure]
    · have hb1 : 0 < m.budget := Nat.pos_of_ne_zero hb
      rw [before_begin, InsertAfter_head_ok v hL hb1, PushFront_ok v hL hb1]
      simp [begin, Mem.obj, objs_lt hL, bind, Except.bind, pure, Except.pure]

/-- Claim C11: on a list with element sequence `xs` and size counter `n`, pushing the
values of any sequence `vs` with `PushFront` (the allocator granting `|vs|` nodes) and
then calling `PopFront()` `|vs|` times returns normally and leaves the element sequence
`xs` and the size `n`; with one value, `PushFront(v)` then `PopFront()` does so. -/
theorem PushFronts_then_PopFronts (m : Mem α) (this : Nat) (as : List Nat) (xs : List α)
    (n : Nat) (vs : List α) (h : IsList m this as xs n) (hb : vs.length ≤ m.budget) :
    ∃ m1 m2, PushFronts this vs m = .ok m1 ∧ PopFronts this vs.length m1 = .ok m2 ∧
      elements this m2 = .ok xs ∧ GetSize this m2 = .ok n := by
  obtain ⟨m1, bs, he, hlen, hl, -⟩ := PushFronts_IsList vs h hb
  obtain ⟨m2, he2, hl2⟩ :=
    PopFronts_IsList bs vs.reverse m1 as xs n (by simp [hlen]) (by rw [hlen]; exact hl)
  exact ⟨m1, m2, he, by rw [← hlen]; exact he2, elements_of_IsList hl2, GetSize_of_IsList hl2⟩

theorem PushFronts_then_PopFronts_witness :
    IsList m123 0 [2, 1, 0] [1, 2, 3] 3 ∧ ([8, 9] : List Int).length ≤ m123.budget ∧
    ∃ m1 m2, PushFronts 0 [8, 9] m123 = .ok m1 ∧ PopFronts 0 2 m1 = .ok m2 ∧
      elements 0 m2 = .ok [1, 2, 3] ∧ GetSize 0 m2 = .ok 3 :=
  ⟨m123_isList, by decide,
    PushFronts_then_PopFronts m123 0 [2, 1, 0] [1, 2, 3] 3 [8, 9] m123_isList (by decide)⟩

/-- Claim C12: on every list, `Clear()` returns and leaves the list empty: `begin()` is
`end()`, `IsEmpty()` is true, `GetSize()` is 0, iteration yields nothing.  A second
`Clear()`, like `Clear()` on any list that is already empty, returns and leaves that same
memory. -/
theorem Clear_spec (m : Mem α) (this : Nat) (as : List Nat) (xs : List α) (n : Nat)
    (h : IsList m this as xs n) :
    ∃ m2, Clear this m = .ok m2 ∧ begin this m2 = .ok end_ ∧ IsEmpty this m2 = .ok true ∧
      GetSize this m2 = .ok 0 ∧ elements this m2 = .ok [] ∧ Clear this m2 = .ok m2 ∧
      (xs = [] → n = 0 → m2 = m) := by
  obtain ⟨m2, he, hl, -, -, -⟩ := Clear_IsList h
  have hem := Clear_empty hl
  refine ⟨m2, he, ?_, ?_, GetSize_of_IsList hl, elements_of_IsList hl, hem, ?_⟩
  · obtain ⟨L, hL, -, hs⟩ := hl
    have hp : L.head_.next_node = .null := by simpa [Seg] using hs
    simp [begin, obj_eq hL, hp, end_, bind, Except.bind, pure, Except.pure]
  · obtain ⟨L, hL, hn, -⟩ := hl
    simp [SingleLinkedList.IsEmpty, obj_eq hL, hn, bind, Except.bind, pure, Except.pure]
  · intro hx hn
    subst hx hn
    have has : as = [] := by
      obtain ⟨L, -, -, hs⟩ := h
      have := Seg_length hs
      simpa using this
    subst has
    have := Clear_empty h
    rw [he] at this
    exact (Except.ok.inj this)

theorem Clear_spec_witness :
    IsList m123 0 [2, 1, 0] [1, 2, 3] 3 ∧
    ∃ m2, Clear 0 m123 = .ok m2 ∧ begin 0 m2 = .ok end_ ∧ IsEmpty 0 m2 = .ok true ∧
      GetSize 0 m2 = .ok 0 ∧ elements 0 m2 = .ok [] ∧ Clear 0 m2 = .ok m2 ∧
      (([1, 2, 3] : List Int) = [] → 3 = 0 → m2 = m123) :=
  ⟨m123_isList, Clear_spec m123 0 [2, 1, 0] [1, 2, 3] 3 m123_isList⟩

/-- Claim C13: for every two lists `A` and `B`, `A.swap(B)` returns, and so does the free
`swap(A, B)` with the same result: afterwards `A` iterates as `B` did and has `B`'s former
size, `B` iterates as `A` did and has `A`'s former size, and no heap node was written. -/
theorem swap_spec (m : Mem α) (a b : Nat) (as1 as2 : List Nat) (xs1 xs2 : List α)
    (n1 n2 : Nat) (h1 : IsList m a as1 xs1 n1) (h2 : IsList m b as2 xs2 n2) :
    ∃ m2, SingleLinkedList.swap a b m = .ok m2 ∧ free_swap a b m = .ok m2 ∧
      elements a m2 = .ok xs2 ∧ GetSize a m2 = .ok n2 ∧
      elements b m2 = .ok xs1 ∧ GetSize b m2 = .ok n1 ∧ m2.heap = m.heap := by
  obtain ⟨m2, he, hl1, hl2, hh, -, -⟩ := swap_IsList h1 h2
  exact ⟨m2, he, he, elements_of_IsList hl1, GetSize_of_IsList hl1, elements_of_IsList hl2,
    GetSize_of_IsList hl2, hh⟩

theorem swap_spec_witness :
    IsList mTwoLists 0 [0] [7] 1 ∧ IsList mTwoLists 1 [2, 1] [1, 2] 2 ∧
    ∃ m2, SingleLinkedList.swap 0 1 mTwoLists = .ok m2 ∧ free_swap 0 1 mTwoLists = .ok m2 ∧
      elements 0 m2 = .ok [1, 2] ∧ GetSize 0 m2 = .ok 2 ∧
      elements 1 m2 = .ok [7] ∧ GetSize 1 m2 = .ok 1 ∧ m2.heap = mTwoLists.heap :=
  ⟨mTwoLists_isList0, mTwoLists_isList1,
    swap_spec mTwoLists 0 1 [0] [2, 1] [7] [1, 2] 1 2 mTwoLists_isList0 mTwoLists_isList1⟩

theorem mFour_built :
    ((((ctor_init_list [1, 2] mEmpty).bind (fun r => ctor_init_list [1, 2, 3] r.2)).bind
      (fun r => ctor_init_list [1, 3] r.2)).bind (fun r => ctor_init_list [] r.2)) =
      .ok (3, mFour) := rfl

theorem mFour_isList0 : IsList mFour 0 [1, 0] [1, 2] 2 :=
  ⟨_, rfl, rfl, rfl, _, rfl, rfl, _, rfl, rfl⟩

theorem mFour_isList1 : IsList mFour 1 [4, 3, 2] [1, 2, 3] 3 :=
  ⟨_, rfl, rfl, rfl, _, rfl, rfl, _, rfl, rfl, _, rfl, rfl⟩

theorem mFour_isList2 : IsList mFour 2 [6, 5] [1, 3] 2 :=
  ⟨_, rfl, rfl, rfl, _, rfl, rfl, _, rfl, rfl⟩

/-- Claim C15: over a totally ordered element type, `L1 < L2` returns true exactly when
the element sequence of `L1` is lexicographically smaller than that of `L2` (they agree
up to an index where `L1` has the smaller element, or where `L1` has ended and `L2` has
not); in particular an empty list is less than every non-empty one. -/
theorem operator_lt_spec [LinearOrder α] (m : Mem α) (l1 l2 : Nat) (as1 as2 : List Nat)
    (xs1 xs2 : List α) (n1 n2 : Nat) (h1 : IsList m l1 as1 xs1 n1)
    (h2 : IsList m l2 as2 xs2 n2) :
    ∃ r, operator_lt l1 l2 m = .ok r ∧ (r = true ↔ LexSmaller xs1 xs2) ∧
      (xs1 = [] → xs2 ≠ [] → r = true) := by
  refine ⟨lexLess xs1 xs2, operator_lt_of_IsList h1 h2, lexLess_iff xs1 xs2, ?_⟩
  intro e1 e2
  subst e1
  cases xs2 with
  | nil => exact absurd rfl e2
  | cons y ys => rfl

theorem operator_lt_spec_witness :
    IsList mFour 0 [1, 0] [1, 2] 2 ∧ IsList mFour 1 [4, 3, 2] [1, 2, 3] 3 ∧
    (∃ r, operator_lt 0 1 mFour = .ok r ∧ (r = true ↔ LexSmaller ([1, 2] : List Int) [1, 2, 3]) ∧
      (([1, 2] : List Int) = [] → ([1, 2, 3] : List Int) ≠ [] → r = true)) ∧
    operator_lt 0 1 mFour = .ok true ∧ operator_lt 1 2 mFour = .ok true ∧
    operator_lt 0 2 mFour = .ok true ∧ operator_lt 1 0 mFour = .ok false ∧
    operator_lt 2 1 mFour = .ok false ∧ operator_lt 3 0 mFour = .ok true ∧
    operator_lt 0 3 mFour = .ok false :=
  ⟨mFour_isList0, mFour_isList1,
    operator_lt_spec mFour 0 1 [1, 0] [4, 3, 2] [1, 2] [1, 2, 3] 2 3 mFour_isList0 mFour_isList1,
    rfl, rfl, rfl, rfl, rfl, rfl, rfl⟩

theorem mNaN_built :
    (ctor_init_list [Dbl.nan] mEmptyDbl).bind (fun r => ctor_init_list [Dbl.nan] r.2) =
      .ok (1, mNaN) := rfl

theorem mLoose_built :
    (ctor_init_list [Loose.mk 5] mEmptyLoose).bind (fun r => ctor_init_list [Loose.mk 5] r.2) =
      .ok (1, mLoose) := rfl

theorem same_sequence_not_less_on_int :
    ∃ l1 m1 l2 m2, ctor_init_list [4, 5] mEmpty = .ok (l1, m1) ∧
      ctor_init_list [4, 5] m1 = .ok (l2, m2) ∧ operator_eq l1 l2 m2 = .ok true ∧
      operator_lt l1 l2 m2 = .ok false ∧ operator_lt l2 l1 m2 = .ok false :=
  ⟨_, _, _, _, rfl, rfl, rfl, rfl, rfl⟩

/-- Claim C17: copy assignment `L1 = L2` between different lists, when the allocator has
fewer nodes left than `L2` has elements (so that some allocation during the copy fails,
whichever one it is): the call ends in `std::bad_alloc`, and in the memory it leaves
behind `L1` iterates as before and reports its former size. -/
theorem assign_atomic_on_bad_alloc [Inhabited α] (m : Mem α) (this rhs : Nat)
    (as1 as2 : List Nat) (xs1 xs2 : List α) (n1 n2 : Nat) (h1 : IsList m this as1 xs1 n1)
    (h2 : IsList m rhs as2 xs2 n2) (hne : this ≠ rhs) (hb : m.budget < xs2.length) :
    ∃ mF, assign this rhs m = .error (.bad_alloc mF) ∧ elements this mF = .ok xs1 ∧
      GetSize this mF = .ok n1 := by
  obtain ⟨mF, he, hframe⟩ := assign_fail h2 hne hb
  have hl := hframe _ _ _ _ h1
  exact ⟨mF, he, elements_of_IsList hl, GetSize_of_IsList hl⟩

theorem assign_atomic_on_bad_alloc_witness :
    IsList mTwoListsTight 0 [0] [7] 1 ∧ IsList mTwoListsTight 1 [2, 1] [1, 2] 2 ∧
    (0 : Nat) ≠ 1 ∧ mTwoListsTight.budget < ([1, 2] : List Int).length ∧
    ∃ mF, assign 0 1 mTwoListsTight = .error (.bad_alloc mF) ∧ elements 0 mF = .ok [7] ∧
      GetSize 0 mF = .ok 1 :=
  ⟨mTwoListsTight_isList0, mTwoListsTight_isList1, by decide, by decide,
    assign_atomic_on_bad_alloc mTwoListsTight 0 1 [0] [2, 1] [7] [1, 2] 1 2
      mTwoListsTight_isList0 mTwoListsTight_isList1 (by decide) (by decide)⟩

/-- Claim C18: on an empty list (no nodes, size counter 0) `EraseAfter(before_begin())`
returns normally, returns `end()`, and leaves the memory, hence the empty list with size
0, exactly as it was. -/
theorem EraseAfter_before_begin_on_empty (m : Mem α) (this : Nat)
    (h : IsList m this [] [] 0) :
    EraseAfter this (before_begin this) m = .ok (end_, m) ∧
    elements this m = .ok [] ∧ GetSize this m = .ok 0 := by
  refine ⟨?_, elements_of_IsList h, GetSize_of_IsList h⟩
  obtain ⟨L, hL, hn, hs⟩ := h
  have hp : L.head_.next_node = .null := by simpa [Seg] using hs
  simp [EraseAfter, before_begin, obj_eq hL, hn, readNode_head hL, hp, end_, bind, Except.bind,
    pure, Except.pure]

theorem EraseAfter_before_begin_on_empty_witness :
    IsList mDefault 0 [] [] 0 ∧
    EraseAfter 0 (before_begin 0) mDefault = .ok (end_, mDefault) ∧
    elements 0 mDefault = .ok [] ∧ GetSize 0 mDefault = .ok 0 :=
  ⟨mDefault_isList, EraseAfter_before_begin_on_empty mDefault 0 mDefault_isList⟩

/-- Claim C19: over a totally ordered element type, for two lists whose size counters
equal their chain lengths, all six comparisons return, and with `lt`, `gt`, `eq` the
results of `L1 < L2`, `L2 < L1` and `L1 == L2`: `L1 <= L2` is `lt` or `eq`, `L1 > L2` is
`gt`, and `L1 >= L2` is `gt` or `eq`; `lt` itself is the lexicographic order. -/
theorem derived_operators_spec [LinearOrder α] (m : Mem α) (l1 l2 : Nat)
    (as1 as2 : List Nat) (xs1 xs2 : List α) (h1 : IsList m l1 as1 xs1 xs1.length)
    (h2 : IsList m l2 as2 xs2 xs2.length) :
    ∃ lt gt eq, operator_lt l1 l2 m = .ok lt ∧ operator_lt l2 l1 m = .ok gt ∧
      operator_eq l1 l2 m = .ok eq ∧
      operator_le l1 l2 m = .ok (lt || eq) ∧
      operator_gt l1 l2 m = .ok gt ∧
      operator_ge l1 l2 m = .ok (gt || eq) ∧
      (lt = true ↔ LexSmaller xs1 xs2) := by
  have hlt := operator_lt_of_IsList h1 h2
  have hgt := operator_lt_of_IsList h2 h1
  have heq := operator_eq_of_IsList h1 h2
  refine ⟨lexLess xs1 xs2, lexLess xs2 xs1, decide (xs1 = xs2), hlt, hgt, heq, ?_, ?_, ?_,
    lexLess_iff xs1 xs2⟩
  · simp only [operator_le, hgt, bind, Except.bind, pure, Except.pure]
    rw [lexLess_not_flip xs1 xs2]
  · simp only [operator_gt, hgt]
  · simp only [operator_ge, hlt, bind, Except.bind, pure, Except.pure]
    rw [lexLess_not_flip xs2 xs1]
    have e : decide (xs2 = xs1) = decide (xs1 = xs2) := by
      by_cases h : xs1 = xs2
      · simp [h]
      · have h' : ¬ xs2 = xs1 := fun e => h e.symm
        simp [h, h']
    rw [e]

theorem derived_operators_spec_witness :
    IsList mFour 0 [1, 0] [1, 2] ([1, 2] : List Int).length ∧
    IsList mFour 1 [4, 3, 2] [1, 2, 3] ([1, 2, 3] : List Int).length ∧
    (∃ lt gt eq, operator_lt 0 1 mFour = .ok lt ∧ operator_lt 1 0 mFour = .ok gt ∧
      operator_eq 0 1 mFour = .ok eq ∧
      operator_le 0 1 mFour = .ok (lt || eq) ∧
      operator_gt 0 1 mFour = .ok gt ∧
      operator_ge 0 1 mFour = .ok (gt || eq) ∧
      (lt = true ↔ LexSmaller ([1, 2] : List Int) [1, 2, 3])) ∧
    operator_le 0 1 mFour = .ok true ∧ operator_gt 0 1 mFour = .ok false ∧
    operator_ge 0 1 mFour = .ok false ∧ operator_le 0 0 mFour = .ok true ∧
    operator_ge 0 0 mFour = .ok true :=
  ⟨mFour_isList0, mFour_isList1,
    derived_operators_spec mFour 0 1 [1, 0] [4, 3, 2] [1, 2] [1, 2, 3] mFour_isList0
      mFour_isList1,
    rfl, rfl, rfl, rfl, rfl⟩

/-- Claim C20 fails at the last node: on the list `[1, 2, 3]` (size counter 3, equal to
the chain length) with `pos` at its last node, the link of `pos` is null, the guard
`size_ > 0` passes, and `EraseAfter(pos)` reads through that null link. -/
theorem EraseAfter_at_last_node_follows_null_link :
    IsList m123 0 [2, 1, 0] [1, 2, 3] ([1, 2, 3] : List Int).length ∧
    (positions 0 [2, 1, 0])[3]? = some ⟨.cell 0⟩ ∧
    GetSize 0 m123 = .ok 3 ∧
    m123.readNode (.cell 0) = .ok ⟨3, .null⟩ ∧
    EraseAfter 0 ⟨.cell 0⟩ m123 = .error .undefined :=
  ⟨m123_isList, rfl, rfl, rfl, rfl⟩

/-- Claim C20 as amended: on a non-empty list whose size counter equals its chain length,
for `pos` the `i`-th position (0 the sentinel, `k + 1` the `k`-th node): when a node
follows `pos` its link is not null and `EraseAfter(pos)` returns normally; when `pos` is
the last node its link is null and `EraseAfter(pos)`, let through by `size_ > 0`, reads
through the null pointer. -/
theorem EraseAfter_next_link (m : Mem α) (this : Nat) (as : List Nat) (xs : List α) (i : Nat)
    (pos : BasicIterator) (h : IsList m this as xs xs.length) (hne : xs ≠ [])
    (hpos : (positions this as)[i]? = some pos) :
    ∃ nd, m.readNode pos.node_ = .ok nd ∧
      (i < xs.length → nd.next_node ≠ .null ∧ ∃ r, EraseAfter this pos m = .ok r) ∧
      (i = xs.length → nd.next_node = .null ∧ EraseAfter this pos m = .error .undefined) := by
  have hlen : as.length = xs.length := by
    obtain ⟨L, -, -, hs⟩ := h
    exact Seg_length hs
  have hpos' : 0 < xs.length := List.length_pos.2 hne
  obtain ⟨hpn, nd, hr, hseg⟩ := readNode_position h hpos
  refine ⟨nd, hr, fun hi => ⟨?_, ?_⟩, fun hi => ?_⟩
  · intro hnull
    rw [hnull] at hseg
    cases hd : as.drop i with
    | nil =>
      have := congrArg List.length hd
      simp at this
      omega
    | cons b bs =>
      rw [hd] at hseg
      cases hx : xs.drop i with
      | nil => rw [hx] at hseg; simp [Seg] at hseg
      | cons y ys =>
        rw [hx] at hseg
        have := ((Seg_cons_iff ..).1 hseg).1
        cases this
  · obtain ⟨it, m2, he, -⟩ := EraseAfter_IsList h hpos' hpos (hlen ▸ hi)
    exact ⟨_, he⟩
  · have hd : as.drop i = [] := List.drop_of_length_le (by omega)
    have hx : xs.drop i = [] := List.drop_of_length_le (by omega)
    rw [hd, hx] at hseg
    have hnull : nd.next_node = .null := by simpa [Seg] using hseg
    obtain ⟨L, hL, hn, -⟩ := h
    exact ⟨hnull, EraseAfter_null_link hL (by omega) hpn hr hnull⟩

theorem EraseAfter_next_link_witness :
    IsList m123 0 [2, 1, 0] [1, 2, 3] ([1, 2, 3] : List Int).length ∧
    ([1, 2, 3] : List Int) ≠ [] ∧ (positions 0 [2, 1, 0])[1]? = some ⟨.cell 2⟩ ∧
    ∃ nd, m123.readNode (.cell 2) = .ok nd ∧
      (1 < ([1, 2, 3] : List Int).length →
        nd.next_node ≠ .null ∧ ∃ r, EraseAfter 0 ⟨.cell 2⟩ m123 = .ok r) ∧
      (1 = ([1, 2, 3] : List Int).length →
        nd.next_node = .null ∧ EraseAfter 0 ⟨.cell 2⟩ m123 = .error .undefined) :=
  ⟨m123_isList, by decide, rfl,
    EraseAfter_next_link m123 0 [2, 1, 0] [1, 2, 3] 1 ⟨.cell 2⟩ m123_isList (by decide) rfl⟩

end Claims
